import Mathlib

/-!
Verification of the standings reconciliation core of the skf repository
(src/skf-site/src/app/services/simgrid-api.service.ts).

The TypeScript service is shallowly embedded: untyped JSON values become the
inductive type JVal, JavaScript numbers become an inductive over rationals
plus the non-finite states, strings are Lean strings (lists of characters),
and each private method of SimgridApiService is translated to an executable
Lean definition of the same name.  Environment functions used by the service
(String.prototype.normalize, toLowerCase, localeCompare, the Unicode
character classes of the regexes) are modelled by explicit tables restricted
to the character repertoire exercised by the development; the restriction is
noted at each table.
-/

namespace Skf

/-- A JavaScript number: a finite rational, or one of the non-finite states. -/
inductive JsNum
  | fin (q : ℚ)
  | nan
  | posInf
  | negInf
deriving DecidableEq, Repr

/-- An untyped JSON/JavaScript value as received from the upstream API. -/
inductive JVal
  | null
  | undef
  | bool (b : Bool)
  | num (n : JsNum)
  | str (s : String)
  | arr (xs : List JVal)
  | obj (fields : List (String × JVal))

/-- JS nullish test: true exactly for null and undefined. -/
def JVal.nullish : JVal → Bool
  | JVal.null => true
  | JVal.undef => true
  | _ => false

/-- The JS nullish-coalescing operator a ?? b. -/
def jsCoalesceV (a b : JVal) : JVal :=
  if a.nullish then b else a

/-- Property access v.k: field lookup on objects, undefined otherwise.
JS would throw on null/undefined receivers; the claims never exercise that
case, so the model returns undefined there. -/
def JVal.get (v : JVal) (k : String) : JVal :=
  match v with
  | JVal.obj fields =>
    match fields.find? (fun p => p.1 = k) with
    | some p => p.2
    | none => JVal.undef
  | _ => JVal.undef

/-- The JS whitespace class used by trim and by the regex class \s,
restricted to the characters exercised here. -/
def jsWs (c : Char) : Bool :=
  c = ' ' || c = '\t' || c = '\n' || c = '\x0d' || c = '\x0b' || c = '\x0c' ||
  c = ' ' || c = '﻿'

/-- Leading and trailing JS whitespace removal (String.prototype.trim). -/
def trimWs (l : List Char) : List Char :=
  ((l.dropWhile jsWs).reverse.dropWhile jsWs).reverse

/-- Split a leading sign off a numeric token. -/
def signSplit : List Char → Bool × List Char
  | '-' :: rest => (true, rest)
  | '+' :: rest => (false, rest)
  | t => (false, t)

/-- Number(s) on a string, restricted model: optional JS whitespace around an
optional sign and decimal digits; the empty (or all-whitespace) string is 0;
anything else is NaN.  The service only ever coerces digit tokens captured by
its own regexes, which this covers. -/
def jsStringToNumber (s : List Char) : JsNum :=
  let t := trimWs s
  if t = [] then JsNum.fin 0
  else
    let p := signSplit t
    if p.2 ≠ [] ∧ p.2.all Char.isDigit then
      let v : ℚ := (p.2.foldl (fun acc c => acc * 10 + (c.toNat - 48)) 0 : ℕ)
      JsNum.fin (if p.1 then -v else v)
    else JsNum.nan

/-- The JS Number(value) coercion.  Arrays and objects coerce through
ToPrimitive in JS; the service never coerces those, so the model returns NaN
for them. -/
def jsToNumber : JVal → JsNum
  | JVal.null => JsNum.fin 0
  | JVal.undef => JsNum.nan
  | JVal.bool b => JsNum.fin (if b then 1 else 0)
  | JVal.num n => n
  | JVal.str s => jsStringToNumber s.data
  | JVal.arr _ => JsNum.nan
  | JVal.obj _ => JsNum.nan

/-- The JS Boolean(value) coercion. -/
def jsTruthy : JVal → Bool
  | JVal.null => false
  | JVal.undef => false
  | JVal.bool b => b
  | JVal.num (JsNum.fin q) => q ≠ 0
  | JVal.num JsNum.nan => false
  | JVal.num _ => true
  | JVal.str s => s ≠ ""
  | JVal.arr _ => true
  | JVal.obj _ => true

/-- toNumber: numeric coercion, 0 when not finite. -/
def toNumber (v : JVal) : ℚ :=
  match jsToNumber v with
  | JsNum.fin q => q
  | _ => 0

/-- toNullableNumber: numeric coercion, null when not finite. -/
def toNullableNumber (v : JVal) : Option ℚ :=
  match jsToNumber v with
  | JsNum.fin q => some q
  | _ => none

/-- toText: the value when it is a string with non-empty trim, else the
fallback. -/
def toText (v : JVal) (fallback : String) : String :=
  match v with
  | JVal.str s => if trimWs s.data ≠ [] then s else fallback
  | _ => fallback

/-- toNullableText: the value when it is a string with non-empty trim, else
null. -/
def toNullableText (v : JVal) : Option String :=
  match v with
  | JVal.str s => if trimWs s.data ≠ [] then some s else none
  | _ => none

/-- DriverRaceResult of the service. -/
structure DriverRaceResult where
  raceId : Option ℚ
  raceIndex : ℕ
  points : Option ℚ
  position : Option ℚ
deriving DecidableEq, Repr

/-- StandingEntry of the service. -/
structure StandingEntry where
  id : ℚ
  position : Option ℚ
  displayName : String
  countryCode : String
  car : String
  points : ℚ
  penalties : ℚ
  score : ℚ
  raceResults : List DriverRaceResult
deriving DecidableEq, Repr

/-- StandingRace of the service. -/
structure StandingRace where
  id : ℚ
  displayName : String
  startsAt : Option String
  resultsAvailable : Bool
  ended : Bool
deriving DecidableEq, Repr

/-- ChampionshipStandingsData of the service. -/
structure ChampionshipStandingsData where
  entries : List StandingEntry
  races : List StandingRace
deriving DecidableEq, Repr

/-- HtmlRaceColumn of the service. -/
structure HtmlRaceColumn where
  raceId : Option ℚ
  raceIndex : ℕ
deriving DecidableEq, Repr

/-- HtmlStandingRow of the service. -/
structure HtmlStandingRow where
  normalizedName : String
  position : Option ℚ
  racePositions : List (Option ℚ)
deriving DecidableEq, Repr

/-- HtmlStandingsSnapshot of the service. -/
structure HtmlStandingsSnapshot where
  raceColumns : List HtmlRaceColumn
  rows : List HtmlStandingRow
deriving DecidableEq, Repr

/-- The JS nullish-coalescing operator on already-parsed optional numbers. -/
def jsCoalesce {α : Type} (a b : Option α) : Option α :=
  match a with
  | some x => some x
  | none => b

/-! ## normalizeName and its character-level environment

String.prototype.normalize with NFKD is modelled by a per-character
decomposition table restricted to the Latin letters with diacritics
exercised here; characters outside the table decompose to themselves.
String.prototype.toLowerCase is modelled by the ASCII case table (the
accented letters are decomposed before lowercasing reaches them, exactly as
in the service pipeline).  The regex class [\p{L}\p{N}] is modelled by
ASCII alphanumerics plus the table keys; combining marks are not letters. -/

/-- NFKD decompositions, restricted repertoire (Latin letters with acute,
grave, diaeresis, tilde, cedilla). -/
def nfkdTable : List (Char × List Char) :=
  [('á', ['a', '́']), ('é', ['e', '́']), ('í', ['i', '́']),
   ('ó', ['o', '́']), ('ú', ['u', '́']),
   ('Á', ['A', '́']), ('É', ['E', '́']), ('Í', ['I', '́']),
   ('Ó', ['O', '́']), ('Ú', ['U', '́']),
   ('à', ['a', '̀']), ('è', ['e', '̀']), ('ì', ['i', '̀']),
   ('ò', ['o', '̀']), ('ù', ['u', '̀']),
   ('À', ['A', '̀']), ('È', ['E', '̀']),
   ('ä', ['a', '̈']), ('ë', ['e', '̈']), ('ï', ['i', '̈']),
   ('ö', ['o', '̈']), ('ü', ['u', '̈']),
   ('Ä', ['A', '̈']), ('Ö', ['O', '̈']), ('Ü', ['U', '̈']),
   ('ñ', ['n', '̃']), ('Ñ', ['N', '̃']),
   ('ç', ['c', '̧']), ('Ç', ['C', '̧'])]

/-- Per-character NFKD: table value, or the character itself. -/
def nfkdChar (c : Char) : List Char :=
  match nfkdTable.find? (fun p => p.1 = c) with
  | some p => p.2
  | none => [c]

/-- ASCII lower-case table for toLowerCase. -/
def lowerTable : List (Char × Char) :=
  [('A', 'a'), ('B', 'b'), ('C', 'c'), ('D', 'd'), ('E', 'e'), ('F', 'f'),
   ('G', 'g'), ('H', 'h'), ('I', 'i'), ('J', 'j'), ('K', 'k'), ('L', 'l'),
   ('M', 'm'), ('N', 'n'), ('O', 'o'), ('P', 'p'), ('Q', 'q'), ('R', 'r'),
   ('S', 's'), ('T', 't'), ('U', 'u'), ('V', 'v'), ('W', 'w'), ('X', 'x'),
   ('Y', 'y'), ('Z', 'z')]

/-- Per-character toLowerCase. -/
def jsToLower (c : Char) : Char :=
  match lowerTable.find? (fun p => p.1 = c) with
  | some p => p.2
  | none => c

/-- Membership in the regex class [\p{L}\p{N}], restricted model: ASCII
alphanumerics and the accented letters of the table.  Combining marks are
in category Mn and are not in the class. -/
def isLN (c : Char) : Bool :=
  c.isAlpha || c.isDigit || (nfkdTable.map (fun p => p.1)).contains c

/-- String-level NFKD. -/
def nfkdStr (l : List Char) : List Char := l.flatMap nfkdChar

/-- String-level toLowerCase. -/
def lowerStr (l : List Char) : List Char := l.map jsToLower

/-- The replacement .replace(/[^\p{L}\p{N}]+/gu, " "): each maximal run of
characters outside the class becomes one space.  The flag records whether a
run is already in progress (its space already emitted). -/
def replaceNonLNGo : List Char → Bool → List Char
  | [], _ => []
  | c :: rest, inRun =>
    if isLN c then c :: replaceNonLNGo rest false
    else if inRun then replaceNonLNGo rest true
    else ' ' :: replaceNonLNGo rest true

/-- .replace(/[^\p{L}\p{N}]+/gu, " "). -/
def replaceNonLN (l : List Char) : List Char := replaceNonLNGo l false

/-- The replacement .replace(/\s+/g, " "): each maximal whitespace run
becomes one space. -/
def collapseWsGo : List Char → Bool → List Char
  | [], _ => []
  | c :: rest, inRun =>
    if jsWs c then
      if inRun then collapseWsGo rest true else ' ' :: collapseWsGo rest true
    else c :: collapseWsGo rest false

/-- .replace(/\s+/g, " "). -/
def collapseWs (l : List Char) : List Char := collapseWsGo l false

/-- normalizeName of the service, on character lists:
value.normalize("NFKD").toLowerCase().replace(/[^\p{L}\p{N}]+/gu, " ")
.trim().replace(/\s+/g, " "). -/
def normalizeNameL (l : List Char) : List Char :=
  collapseWs (trimWs (replaceNonLN (lowerStr (nfkdStr l))))

/-- normalizeName of the service. -/
def normalizeName (s : String) : String :=
  String.mk (normalizeNameL s.data)

/-! ## stripHtml -/

/-- Case-sensitive literal prefix strip: the remainder after the prefix. -/
def csStrip : List Char → List Char → Option (List Char)
  | [], l => some l
  | _ :: _, [] => none
  | p :: ps, c :: cs => if c = p then csStrip ps cs else none

/-- Case-insensitive literal prefix strip (for i-flagged regex literals). -/
def ciStrip : List Char → List Char → Option (List Char)
  | [], l => some l
  | _ :: _, [] => none
  | p :: ps, c :: cs => if jsToLower c = jsToLower p then ciStrip ps cs else none

/-- The replacement .replace(/<[^>]*>/g, " "): every block from a "<" up to
the next ">" becomes one space; a "<" with no later ">" starts no match and
is kept (and then nothing after it can match either).  Fuelled; each step
consumes at least one character, so the input length is enough fuel. -/
def stripTagsGo : ℕ → List Char → List Char
  | 0, l => l
  | _ + 1, [] => []
  | fuel + 1, c :: rest =>
    if c = '<' then
      match rest.dropWhile (fun d => d ≠ '>') with
      | [] => c :: rest
      | _ :: after => ' ' :: stripTagsGo fuel after
    else c :: stripTagsGo fuel rest

/-- .replace(/<[^>]*>/g, " "). -/
def stripTags (l : List Char) : List Char := stripTagsGo l.length l

/-- One global case-insensitive literal replacement by a space, with fuel
(each step consumes at least one character, so the input length is enough
fuel). -/
def ciReplaceTokenGo (pat : List Char) : List Char → ℕ → List Char
  | _, 0 => []
  | [], _ + 1 => []
  | c :: rest, fuel + 1 =>
    match ciStrip pat (c :: rest) with
    | some after => ' ' :: ciReplaceTokenGo pat after fuel
    | none => c :: ciReplaceTokenGo pat rest fuel

/-- .replace(pat-literal/gi, " "). -/
def ciReplaceToken (pat : List Char) (l : List Char) : List Char :=
  ciReplaceTokenGo pat l l.length

/-- stripHtml of the service: tags to spaces, the nbsp entities to spaces,
whitespace runs collapsed, trimmed. -/
def stripHtml (l : List Char) : List Char :=
  trimWs (collapseWs (ciReplaceToken "&#160;".data (ciReplaceToken "&nbsp;".data (stripTags l))))

/-! ## Numeric micro-parsers -/

/-- Whether a character list starts with a decimal digit. -/
def nextIsDigit : List Char → Bool
  | d :: _ => d.isDigit
  | [] => false

/-- Leftmost match of the regex -?\d+ in free text, as the matched token. -/
def findIntToken : List Char → Option (List Char)
  | [] => none
  | c :: rest =>
    if c.isDigit then some (c :: rest.takeWhile Char.isDigit)
    else if c = '-' ∧ nextIsDigit rest then
      some (c :: rest.takeWhile Char.isDigit)
    else findIntToken rest

/-- parseHtmlNumeric of the service (the argument is string-or-null; the
empty string is falsy in JS and also yields null). -/
def parseHtmlNumeric (value : Option (List Char)) : Option ℚ :=
  match value with
  | none => none
  | some s =>
    if s = [] then none
    else
      match findIntToken s with
      | some tok => toNullableNumber (JVal.str (String.mk tok))
      | none => none

/-- The invisible characters stripped by parseHtmlRacePosition:
U+200B..U+200F and U+FEFF. -/
def invisibleChar (c : Char) : Bool :=
  (8203 ≤ c.toNat && c.toNat ≤ 8207) || c.toNat = 65279

/-- parseHtmlRacePosition of the service: strips invisible characters,
collapses and trims whitespace, treats empty, "-" and the em-dash as null,
and otherwise accepts only a leading -?\d+ token (per the source comment,
race cells may contain extra values after the finishing position). -/
def parseHtmlRacePosition (value : Option (List Char)) : Option ℚ :=
  match value with
  | none => none
  | some s =>
    if s = [] then none
    else
      let normalized := trimWs (collapseWs (s.filter (fun c => !invisibleChar c)))
      if normalized = [] ∨ normalized = ['-'] ∨ normalized = ['—'] then none
      else
        match normalized with
        | [] => none
        | c :: rest =>
          if c.isDigit then
            toNullableNumber (JVal.str (String.mk (c :: rest.takeWhile Char.isDigit)))
          else if c = '-' ∧ nextIsDigit rest then
            toNullableNumber (JVal.str (String.mk (c :: rest.takeWhile Char.isDigit)))
          else none

/-! ## Upstream response normalizer -/

/-- Model of String.prototype.localeCompare as the lexicographic string
order (deterministic, locale-independent model of the environment). -/
def strCmp (a b : String) : Ordering :=
  if a < b then Ordering.lt else if a = b then Ordering.eq else Ordering.gt

/-- The sign of aPos - bPos with null as positive infinity (the service
computes the difference; only its sign matters to the sort). -/
def optPosCmp : Option ℚ → Option ℚ → Ordering
  | none, none => Ordering.eq
  | none, some _ => Ordering.gt
  | some _, none => Ordering.lt
  | some x, some y =>
    if x < y then Ordering.lt else if x = y then Ordering.eq else Ordering.gt

/-- sortStandings of the service, as the sign of the returned number:
ascending position with null as positive infinity, then descending score,
then the display-name comparison. -/
def sortStandings (a b : StandingEntry) : Ordering :=
  let cmpPos := optPosCmp a.position b.position
  if cmpPos ≠ Ordering.eq then cmpPos
  else if a.score ≠ b.score then (if b.score < a.score then Ordering.lt else Ordering.gt)
  else strCmp a.displayName b.displayName

/-- The boolean order induced by the comparator, used by the stable sort. -/
def standingsLe (a b : StandingEntry) : Bool :=
  sortStandings a b ≠ Ordering.gt

/-- parseRaces of the service. -/
def parseRaces (value : JVal) : List StandingRace :=
  match value with
  | JVal.arr xs =>
    xs.map (fun item =>
      { id := toNumber (item.get "id")
        displayName := toText (jsCoalesceV (item.get "display_name") (item.get "race_name")) "Race"
        startsAt := toNullableText (item.get "starts_at")
        resultsAvailable := jsTruthy (item.get "results_available")
        ended := jsTruthy (item.get "ended") })
  | _ => []

/-- The value of races[index]?.id as a JS value (undefined out of bounds). -/
def raceIdAtIndex (races : List StandingRace) (index : ℕ) : JVal :=
  match races.get? index with
  | some r => JVal.num (JsNum.fin r.id)
  | none => JVal.undef

/-- One race-result item of parseRaceResults, at its list index. -/
def parseRaceResultItem (races : List StandingRace) (index : ℕ) (item : JVal) : DriverRaceResult :=
  match item with
  | JVal.num n =>
    { raceId := (races.get? index).map (fun r => r.id)
      raceIndex := index
      points := none
      position := toNullableNumber (JVal.num n) }
  | _ =>
    let pointsCandidate :=
      jsCoalesceV (jsCoalesceV (jsCoalesceV (jsCoalesceV
        (item.get "points") (item.get "championship_points"))
        (item.get "score")) (item.get "championship_score")) JVal.null
    let raceIdCandidate :=
      jsCoalesceV (jsCoalesceV (jsCoalesceV (jsCoalesceV
        (item.get "race_id") (item.get "raceId"))
        (item.get "id")) (raceIdAtIndex races index)) JVal.null
    let positionCandidate :=
      jsCoalesceV (jsCoalesceV (jsCoalesceV
        (item.get "position") (item.get "position_cache"))
        (item.get "rank")) JVal.null
    { raceId := toNullableNumber raceIdCandidate
      raceIndex := index
      points := toNullableNumber pointsCandidate
      position := toNullableNumber positionCandidate }

/-- parseRaceResults of the service. -/
def parseRaceResults (value : JVal) (races : List StandingRace) : List DriverRaceResult :=
  match value with
  | JVal.arr xs => xs.enum.map (fun p => parseRaceResultItem races p.1 p.2)
  | _ => []

/-- parseStandingEntry of the service. -/
def parseStandingEntry (entry : JVal) (races : List StandingRace) : StandingEntry :=
  let ps := entry.get "partial_standings"
  let partialResults :=
    match ps with
    | JVal.arr xs => if xs.length > 0 then ps else entry.get "overall_partial_standings"
    | _ => entry.get "overall_partial_standings"
  let participant := entry.get "participant"
  { id := toNumber (entry.get "id")
    position := toNullableNumber (entry.get "position_cache")
    displayName := toText (entry.get "display_name") "Unknown driver"
    countryCode := toText (if participant.nullish then JVal.undef else participant.get "country_code") ""
    car := toText (entry.get "car") ""
    points := toNumber (entry.get "championship_points")
    penalties := toNumber (entry.get "championship_penalties")
    score := toNumber (entry.get "championship_score")
    raceResults := parseRaceResults partialResults races }

/-- parseStandings of the service.  The source checks only
Array.isArray(payload); elements 0 and 1 are then read positionally and a
missing element behaves as undefined. -/
def parseStandings (payload : JVal) : ChampionshipStandingsData :=
  match payload with
  | JVal.arr xs =>
    let races := parseRaces (xs.getD 1 JVal.undef)
    let entriesRaw :=
      match xs.getD 0 JVal.undef with
      | JVal.arr es => es
      | _ => []
    { entries := List.insertionSort (fun a b => standingsLe a b = true)
        (entriesRaw.map (fun e => parseStandingEntry e races))
      races := races }
  | _ => { entries := [], races := [] }

/-! ## HTML scraper

The regexes of extractHtmlStandings are sequences of literals, greedy
complemented-character stars, and lazy dot-stars.  They are modelled by a
small backtracking matcher over exactly those constructs, with the
JavaScript preference order: greedy stars try the longest extent first,
lazy stars the shortest, and the overall match is the leftmost one. -/

inductive Pat
  | lit (s : List Char)
  | litCS (s : List Char)
  | starNot (c : Char)
  | starWs
  | lazyAny
  | capLazyAny
  | capDigits
  | capNotLt

/-- First success of f at k, k-1, ..., 0 (greedy preference: longest
extent first). -/
def firstSomeDesc {α : Type} (f : ℕ → Option α) : ℕ → Option α
  | 0 => f 0
  | k + 1 =>
    match f (k + 1) with
    | some r => some r
    | none => firstSomeDesc f k

/-- First success of f at k, k-1, ..., 1 (greedy one-or-more). -/
def firstSomeDescPos {α : Type} (f : ℕ → Option α) : ℕ → Option α
  | 0 => none
  | k + 1 =>
    match f (k + 1) with
    | some r => some r
    | none => firstSomeDescPos f k

/-- First success of f at k, k+1, ..., k+budget (lazy preference: shortest
extent first). -/
def firstSomeAsc {α : Type} (f : ℕ → Option α) (k : ℕ) : ℕ → Option α
  | 0 => f k
  | budget + 1 =>
    match f k with
    | some r => some r
    | none => firstSomeAsc f (k + 1) budget

/-- Match a pattern sequence at the start of the input; the result is the
number of characters consumed and the captures in order, following the
JavaScript backtracking preference order. -/
def matchPats : List Pat → List Char → Option (ℕ × List (List Char))
  | [], _ => some (0, [])
  | p :: ps, l =>
    match p with
    | Pat.lit s =>
      match ciStrip s l with
      | none => none
      | some rest => (matchPats ps rest).map (fun r => (s.length + r.1, r.2))
    | Pat.litCS s =>
      match csStrip s l with
      | none => none
      | some rest => (matchPats ps rest).map (fun r => (s.length + r.1, r.2))
    | Pat.starNot c =>
      firstSomeDesc (fun k => (matchPats ps (l.drop k)).map (fun r => (k + r.1, r.2)))
        ((l.takeWhile (fun d => d ≠ c)).length)
    | Pat.starWs =>
      firstSomeDesc (fun k => (matchPats ps (l.drop k)).map (fun r => (k + r.1, r.2)))
        ((l.takeWhile jsWs).length)
    | Pat.lazyAny =>
      firstSomeAsc (fun k => (matchPats ps (l.drop k)).map (fun r => (k + r.1, r.2)))
        0 l.length
    | Pat.capLazyAny =>
      firstSomeAsc (fun k => (matchPats ps (l.drop k)).map (fun r => (k + r.1, l.take k :: r.2)))
        0 l.length
    | Pat.capDigits =>
      firstSomeDescPos (fun k => (matchPats ps (l.drop k)).map (fun r => (k + r.1, l.take k :: r.2)))
        ((l.takeWhile Char.isDigit).length)
    | Pat.capNotLt =>
      firstSomeDescPos (fun k => (matchPats ps (l.drop k)).map (fun r => (k + r.1, l.take k :: r.2)))
        ((l.takeWhile (fun d => d ≠ '<')).length)

/-- Leftmost match of a pattern sequence: start offset, length, captures. -/
def findMatchPos (pats : List Pat) : List Char → Option (ℕ × ℕ × List (List Char))
  | [] =>
    match matchPats pats [] with
    | some r => some (0, r.1, r.2)
    | none => none
  | c :: rest =>
    match matchPats pats (c :: rest) with
    | some r => some (0, r.1, r.2)
    | none => (findMatchPos pats rest).map (fun r => (r.1 + 1, r.2.1, r.2.2))

/-- String.prototype.includes (case-sensitive substring test). -/
def containsSub (sub : List Char) : List Char → Bool
  | [] => (csStrip sub []).isSome
  | c :: rest => (csStrip sub (c :: rest)).isSome || containsSub sub rest

/-- All matches of a g-flagged pattern, each as the matched substring and
its captures; scanning resumes after each match (advancing at least one
character), with fuel. -/
def matchAllGo (pats : List Pat) : List Char → ℕ → List (List Char × List (List Char))
  | _, 0 => []
  | l, fuel + 1 =>
    match findMatchPos pats l with
    | none => []
    | some (s, n, caps) =>
      ((l.drop s).take n, caps) :: matchAllGo pats (l.drop (s + max n 1)) fuel

/-- String.prototype.matchAll on a g-flagged pattern. -/
def matchAll (pats : List Pat) (l : List Char) : List (List Char × List (List Char)) :=
  matchAllGo pats l (l.length + 1)

/-- The table-locating regex
/<table[^>]*class="[^"]*table-results[^"]*table-v2[^"]*"[^>]*>[\s\S]*?<\/table>/i. -/
def tablePats : List Pat :=
  [Pat.lit "<table".data, Pat.starNot '>', Pat.lit "class=\"".data,
   Pat.starNot '"', Pat.lit "table-results".data, Pat.starNot '"',
   Pat.lit "table-v2".data, Pat.starNot '"', Pat.lit "\"".data,
   Pat.starNot '>', Pat.lit ">".data, Pat.lazyAny, Pat.lit "</table>".data]

/-- The race-column regex /race_id=(\d+)/g (no i flag). -/
def raceIdPats : List Pat :=
  [Pat.litCS "race_id=".data, Pat.capDigits]

/-- The row regex /<tr[\s\S]*?<\/tr>/gi. -/
def trPats : List Pat :=
  [Pat.lit "<tr".data, Pat.lazyAny, Pat.lit "</tr>".data]

/-- The name regex /class="entrant-name[^"]*"[^>]*>([\s\S]*?)<\/a>/i. -/
def namePats : List Pat :=
  [Pat.lit "class=\"entrant-name".data, Pat.starNot '"', Pat.lit "\"".data,
   Pat.starNot '>', Pat.lit ">".data, Pat.capLazyAny, Pat.lit "</a>".data]

/-- The overall-position regex
/class="[^"]*result-position[^"]*"[^>]*>[\s\S]*?<strong>\s*([^<]+)\s*<\/strong>/i. -/
def posPats : List Pat :=
  [Pat.lit "class=\"".data, Pat.starNot '"', Pat.lit "result-position".data,
   Pat.starNot '"', Pat.lit "\"".data, Pat.starNot '>', Pat.lit ">".data,
   Pat.lazyAny, Pat.lit "<strong>".data, Pat.starWs, Pat.capNotLt,
   Pat.starWs, Pat.lit "</strong>".data]

/-- The race-position cell regex /<span class="show_positions">([\s\S]*?)<\/span>/gi. -/
def spanPats : List Pat :=
  [Pat.lit "<span class=\"show_positions\">".data, Pat.capLazyAny,
   Pat.lit "</span>".data]

/-- One step of the race-column loop of extractHtmlStandings: parse the
captured token, skip null and already-seen ids, and append a column with
the running index. -/
def raceColumnsStep (acc : List HtmlRaceColumn × List ℚ) (tok : List Char) :
    List HtmlRaceColumn × List ℚ :=
  match toNullableNumber (JVal.str (String.mk tok)) with
  | none => acc
  | some raceId =>
    if acc.2.contains raceId then acc
    else (acc.1 ++ [{ raceId := some raceId, raceIndex := acc.1.length }],
          acc.2 ++ [raceId])

/-- The race-column loop of extractHtmlStandings. -/
def buildRaceColumns (tokens : List (List Char)) : List HtmlRaceColumn :=
  (tokens.foldl raceColumnsStep ([], [])).1

/-- One data row of extractHtmlStandings. -/
def buildRow (raceColumns : List HtmlRaceColumn) (rowHtml : List Char) : HtmlStandingRow :=
  let nameCap : Option (List Char) :=
    match findMatchPos namePats rowHtml with
    | some (_, _, cap :: _) => some cap
    | _ => none
  let posCap : Option (List Char) :=
    match findMatchPos posPats rowHtml with
    | some (_, _, cap :: _) => some cap
    | _ => none
  let spanCaps := (matchAll spanPats rowHtml).map (fun m => m.2.headD [])
  { normalizedName := normalizeName (String.mk (stripHtml (nameCap.getD [])))
    position := parseHtmlNumeric posCap
    racePositions := (List.range raceColumns.length).map (fun raceIndex =>
      parseHtmlRacePosition (some (stripHtml ((spanCaps.get? raceIndex).getD [])))) }

/-- extractHtmlStandings of the service. -/
def extractHtmlStandings (html : List Char) : Option HtmlStandingsSnapshot :=
  match findMatchPos tablePats html with
  | none => none
  | some (s, n, _) =>
    let tableHtml := (html.drop s).take n
    let raceColumns :=
      buildRaceColumns ((matchAll raceIdPats tableHtml).map (fun m => m.2.headD []))
    let rows := (matchAll trPats tableHtml).filterMap (fun m =>
      if containsSub "entrant-name".data m.1 then some (buildRow raceColumns m.1) else none)
    if rows.length > 0 then some { raceColumns := raceColumns, rows := rows } else none

/-! ## Reconciliation merger -/

/-- Map.set keyed by raceIndex: updates in place, else appends
(JS Map preserves the original insertion position on update). -/
def mapSet (m : List (ℕ × DriverRaceResult)) (k : ℕ) (v : DriverRaceResult) :
    List (ℕ × DriverRaceResult) :=
  if m.any (fun p => p.1 = k) then m.map (fun p => if p.1 = k then (k, v) else p)
  else m ++ [(k, v)]

/-- Map.get keyed by raceIndex. -/
def mapGet (m : List (ℕ × DriverRaceResult)) (k : ℕ) : Option DriverRaceResult :=
  (m.find? (fun p => p.1 = k)).map (fun p => p.2)

/-- The byRaceIndex map built from the current results. -/
def raceResultsByIndex (current : List DriverRaceResult) : List (ℕ × DriverRaceResult) :=
  current.foldl (fun m r => mapSet m r.raceIndex r) []

/-- One step of the html-position merge loop of mergeRaceResults. -/
def mergeRaceResultsStep (races : List StandingRace)
    (m : List (ℕ × DriverRaceResult)) (p : ℕ × Option ℚ) :
    List (ℕ × DriverRaceResult) :=
  match mapGet m p.1 with
  | some existing =>
    mapSet m p.1 { existing with
      raceId := jsCoalesce existing.raceId ((races.get? p.1).map (fun r => r.id))
      position := jsCoalesce existing.position p.2 }
  | none =>
    match p.2 with
    | none => m
    | some _ =>
      mapSet m p.1 { raceId := (races.get? p.1).map (fun r => r.id)
                     raceIndex := p.1, points := none, position := p.2 }

/-- mergeRaceResults of the service. -/
def mergeRaceResults (current : List DriverRaceResult)
    (htmlRacePositions : List (Option ℚ)) (races : List StandingRace) :
    List DriverRaceResult :=
  let m := htmlRacePositions.enum.foldl (mergeRaceResultsStep races)
    (raceResultsByIndex current)
  List.insertionSort (fun a b => a.raceIndex ≤ b.raceIndex) (m.map (fun p => p.2))

/-- Array.prototype.findIndex with an index-aware predicate: the first index
satisfying the predicate. -/
def findRowIdxFrom (p : ℕ → HtmlStandingRow → Bool) :
    List HtmlStandingRow → ℕ → Option ℕ
  | [], _ => none
  | row :: rest, i => if p i row then some i else findRowIdxFrom p rest (i + 1)

/-- findHtmlRowIndex of the service: name match, then (for a non-null entry
position) position match, then the entry index itself, each against unused
rows; none otherwise (the source returns -1). -/
def findHtmlRowIndex (entry : StandingEntry) (entryIndex : ℕ)
    (rows : List HtmlStandingRow) (usedRows : List ℕ) : Option ℕ :=
  match findRowIdxFrom (fun i row =>
      !usedRows.contains i && decide (row.normalizedName = normalizeName entry.displayName)) rows 0 with
  | some i => some i
  | none =>
    let fallback : Option ℕ :=
      if entryIndex < rows.length ∧ ¬ usedRows.contains entryIndex then some entryIndex else none
    match entry.position with
    | some pos =>
      match findRowIdxFrom (fun i row =>
          !usedRows.contains i && decide (row.position = some pos)) rows 0 with
      | some i => some i
      | none => fallback
    | none => fallback

/-- mergeRaces of the service. -/
def mergeRaces (current : List StandingRace) (raceColumns : List HtmlRaceColumn) :
    List StandingRace :=
  if raceColumns.length ≤ current.length then current
  else raceColumns.enum.foldl (fun merged p =>
    if p.1 < merged.length then merged
    else merged ++ [{ id := p.2.raceId.getD (-(((p.1 + 1 : ℕ) : ℚ)))
                      displayName := "Race " ++ toString (p.1 + 1)
                      startsAt := none, resultsAvailable := false, ended := false }]) current

/-- The entry loop of mergeHtmlRacePositions, also returning the per-entry
row assignment (some rowIndex for a matched entry, none for a pass-through). -/
def mergeEntriesGo (rows : List HtmlStandingRow) (races : List StandingRace) :
    List StandingEntry → ℕ → List ℕ → List StandingEntry × List (Option ℕ)
  | [], _, _ => ([], [])
  | e :: rest, entryIndex, used =>
    match findHtmlRowIndex e entryIndex rows used with
    | none =>
      let r := mergeEntriesGo rows races rest (entryIndex + 1) used
      (e :: r.1, none :: r.2)
    | some rowIndex =>
      let row := (rows.get? rowIndex).getD { normalizedName := "", position := none, racePositions := [] }
      let r := mergeEntriesGo rows races rest (entryIndex + 1) (used ++ [rowIndex])
      ({ e with raceResults := mergeRaceResults e.raceResults row.racePositions races } :: r.1,
       some rowIndex :: r.2)

/-- The snapshot-level body of mergeHtmlRacePositions (after the scrape):
an empty snapshot returns the data unchanged. -/
def mergeHtmlSnapshot (data : ChampionshipStandingsData)
    (snapshot : HtmlStandingsSnapshot) : ChampionshipStandingsData :=
  if snapshot.raceColumns.length = 0 ∨ snapshot.rows.length = 0 then data
  else
    let races := mergeRaces data.races snapshot.raceColumns
    { entries := (mergeEntriesGo snapshot.rows races data.entries 0 []).1, races := races }

/-- mergeHtmlRacePositions of the service. -/
def mergeHtmlRacePositions (data : ChampionshipStandingsData) (html : List Char) :
    ChampionshipStandingsData :=
  match extractHtmlStandings html with
  | none => data
  | some snapshot => mergeHtmlSnapshot data snapshot

/-- hasRacePositions of the service. -/
def hasRacePositions (data : ChampionshipStandingsData) : Bool :=
  data.entries.any (fun e => e.raceResults.any (fun r => r.position ≠ none))

/-- The orchestrator getChampionshipStandings, with the upstream payload
already fetched and the HTML fetch outcome passed explicitly (the rxjs
chain map / switchMap / catchError becomes direct control flow; catchError
of the HTML fetch returns the normalized standings). -/
def getChampionshipStandings (payload : JVal) (htmlFetch : Except Unit (List Char)) :
    ChampionshipStandingsData :=
  let standings := parseStandings payload
  if hasRacePositions standings || standings.races.isEmpty then standings
  else
    match htmlFetch with
    | Except.error _ => standings
    | Except.ok html => mergeHtmlRacePositions standings html

/-! ## Spec-side definitions (from the specification text, for comparison
with the source-derived definitions above) -/

/-- Keep the first occurrence of each distinct element, in order: an
element is kept exactly when it has not been seen before it. -/
def dedupSeen (seen : List ℚ) : List ℚ → List ℚ
  | [] => []
  | a :: rest =>
    if seen.contains a then dedupSeen seen rest
    else a :: dedupSeen (seen ++ [a]) rest

/-- First occurrences of the distinct elements, in order. -/
def dedupKeepFirst (l : List ℚ) : List ℚ := dedupSeen [] l

/-- The effective position of an entry: its position, with null as
positive infinity. -/
def effPos (e : StandingEntry) : WithTop ℚ :=
  match e.position with
  | none => ⊤
  | some q => (q : WithTop ℚ)

/-- The standings order as the specification words it: ascending effective
position, then descending score, then ascending display name. -/
def standingsSpecLe (a b : StandingEntry) : Prop :=
  effPos a < effPos b ∨
    (effPos a = effPos b ∧
      (b.score < a.score ∨ (a.score = b.score ∧ a.displayName ≤ b.displayName)))

/-- First non-nullish value of an ordered candidate list, else null
(the "first non-null of several candidate keys" pattern of the spec). -/
def firstNonNullish : List JVal → JVal
  | [] => JVal.null
  | v :: rest => if v.nullish then firstNonNullish rest else v

/-- Numeric value of a digit run. -/
def digitsVal (l : List Char) : ℚ :=
  ((l.foldl (fun acc c => acc * 10 + (c.toNat - 48)) 0 : ℕ) : ℚ)

/-- Spec-side reading of a leading signed-integer token: its numeric value,
none when the text does not start with one. -/
def leadingIntValue : List Char → Option ℚ
  | [] => none
  | c :: rest =>
    if c.isDigit then some (digitsVal (c :: rest.takeWhile Char.isDigit))
    else if c = '-' then
      match rest with
      | d :: _ => if d.isDigit then some (-(digitsVal (rest.takeWhile Char.isDigit))) else none
      | [] => none
    else none

/-- The matched table block of the page, when the marker table is found. -/
def tableBlock (html : List Char) : Option (List Char) :=
  (findMatchPos tablePats html).map (fun r => (html.drop r.1).take r.2.1)

/-- The numeric race_id token values of a table block, in document order
(tokens that do not parse to a finite number are skipped, as in the
column loop). -/
def raceIdTokens (tableHtml : List Char) : List ℚ :=
  ((matchAll raceIdPats tableHtml).map (fun m => m.2.headD [])).filterMap
    (fun tok => toNullableNumber (JVal.str (String.mk tok)))

/-- A character left fixed by the per-character pipeline stages. -/
def StableChar (c : Char) : Prop :=
  nfkdChar c = [c] ∧ jsToLower c = c

/-- The shape of normalizeName output: every character is a stable
letter-or-digit or a space, with no two adjacent spaces and no space at
either end. -/
def NormOut (l : List Char) : Prop :=
  (∀ c ∈ l, (isLN c = true ∧ StableChar c) ∨ c = ' ') ∧
  l.Chain' (fun a b => ¬(a = ' ' ∧ b = ' ')) ∧
  l.head? ≠ some ' ' ∧ l.getLast? ≠ some ' '

/-- Well-formedness of the byRaceIndex map: keys are distinct and each
stored result's raceIndex equals its key. -/
def WfMap (m : List (ℕ × DriverRaceResult)) : Prop :=
  (m.map (fun p => p.1)).Nodup ∧ ∀ p ∈ m, p.2.raceIndex = p.1

/-! ## Concrete instances used by witnesses and counterexamples -/

/-- Three known races, for the Scenario A instance. -/
def cRaces : List StandingRace :=
  [{ id := 100, displayName := "Race A", startsAt := none, resultsAvailable := false, ended := false },
   { id := 200, displayName := "Race B", startsAt := none, resultsAvailable := false, ended := false },
   { id := 300, displayName := "Race C", startsAt := none, resultsAvailable := false, ended := false }]

/-- A one-element top-level array payload: an array, but not a 2-element
array. -/
def cPayloadOne : JVal :=
  JVal.arr [JVal.arr [JVal.obj [("id", JVal.num (JsNum.fin 7)),
                                ("display_name", JVal.str "Bob")]]]

/-- A standings page with the marker table and one entrant row but no
race_id tokens. -/
def cHtmlNoCols : List Char :=
  "<table class=\"table-results table-v2\"><tr><a class=\"entrant-name\">Bob</a></tr></table>".data

/-- A standings page with the marker table, two distinct race_id tokens
(one repeated) and one entrant row. -/
def cHtmlCols : List Char :=
  ("<table class=\"table-results table-v2\"><a href=\"?race_id=12\"></a>" ++
   "<a href=\"?race_id=34\"></a><a href=\"?race_id=12\"></a>" ++
   "<tr><a class=\"entrant-name\">Bob</a></tr></table>").data

/-- A small entry used by witnesses. -/
def cEntryBob : StandingEntry :=
  { id := 1, position := some 1, displayName := "Bob", countryCode := "", car := ""
    points := 10, penalties := 0, score := 10
    raceResults := [{ raceId := some 100, raceIndex := 0, points := some 5, position := none }] }

/-- A second entry used by witnesses. -/
def cEntryAnn : StandingEntry :=
  { id := 2, position := none, displayName := "Ann", countryCode := "", car := ""
    points := 8, penalties := 0, score := 8, raceResults := [] }

/-- A snapshot with two race columns and two rows, used by witnesses. -/
def cSnap : HtmlStandingsSnapshot :=
  { raceColumns := [{ raceId := some 100, raceIndex := 0 }, { raceId := some 200, raceIndex := 1 }]
    rows := [{ normalizedName := "ann", position := none, racePositions := [some 2, some 3] },
             { normalizedName := "bob", position := some 1, racePositions := [some 1, none] }] }

/-- The merge input data used by witnesses. -/
def cData : ChampionshipStandingsData :=
  { entries := [cEntryBob, cEntryAnn]
    races := [{ id := 100, displayName := "Race A", startsAt := none,
                resultsAvailable := false, ended := false }] }

/-- The step function of the mergeRaces fold, named for reasoning. -/
def mergeRacesF : List StandingRace → ℕ × HtmlRaceColumn → List StandingRace := fun merged p =>
  if p.1 < merged.length then merged
  else merged ++ [{ id := p.2.raceId.getD (-(((p.1 + 1 : ℕ) : ℚ)))
                    displayName := "Race " ++ toString (p.1 + 1)
                    startsAt := none, resultsAvailable := false, ended := false }]

/-- Spec-side predicate: row i is an unused exact normalized-name match. -/
def nameMatchAt (entry : StandingEntry) (rows : List HtmlStandingRow)
    (used : List ℕ) (i : ℕ) : Prop :=
  i ∉ used ∧
  ∃ row, rows.get? i = some row ∧ row.normalizedName = normalizeName entry.displayName

/-- Spec-side predicate: row i is an unused exact position match. -/
def posMatchAt (entry : StandingEntry) (rows : List HtmlStandingRow)
    (used : List ℕ) (i : ℕ) : Prop :=
  i ∉ used ∧
  ∃ row, rows.get? i = some row ∧ row.position = entry.position

/-- Spec-side characterization of the row chosen for an entry: the first
unused name match; else (for a non-null entry position) the first unused
position match; else the entry's own index when in bounds and unused. -/
def specRowMatch (entry : StandingEntry) (entryIndex : ℕ) (rows : List HtmlStandingRow)
    (used : List ℕ) (i : ℕ) : Prop :=
  (nameMatchAt entry rows used i ∧ ∀ j < i, ¬ nameMatchAt entry rows used j)
  ∨ ((∀ j, ¬ nameMatchAt entry rows used j) ∧ entry.position ≠ none ∧
     posMatchAt entry rows used i ∧ ∀ j < i, ¬ posMatchAt entry rows used j)
  ∨ ((∀ j, ¬ nameMatchAt entry rows used j) ∧
     (entry.position = none ∨ ∀ j, ¬ posMatchAt entry rows used j) ∧
     i = entryIndex ∧ entryIndex < rows.length ∧ entryIndex ∉ used)

/-- The row looked up by a merge assignment (the source indexes
snapshot.rows[rowIndex]; out of range gives the default row). -/
def rowAt (rows : List HtmlStandingRow) (ri : ℕ) : HtmlStandingRow :=
  (rows.get? ri).getD { normalizedName := "", position := none, racePositions := [] }

/-- An entry whose race results repeat a raceIndex with different points. -/
def cDupEntry : StandingEntry :=
  { id := 1, position := some 1, displayName := "Bob", countryCode := "", car := ""
    points := 0, penalties := 0, score := 0
    raceResults := [{ raceId := some 12, raceIndex := 0, points := some 1, position := none },
                    { raceId := some 12, raceIndex := 0, points := some 2, position := none }] }

/-- Data holding the duplicated-raceIndex entry. -/
def cDupData : ChampionshipStandingsData :=
  { entries := [cDupEntry], races := [] }

/-! # Supporting lemmas -/

theorem toNullableNumber_mk (tok : List Char) :
    toNullableNumber (JVal.str (String.mk tok)) =
      match jsStringToNumber tok with
      | JsNum.fin q => some q
      | _ => none := rfl

theorem jsCoalesceV_assoc (x y z : JVal) :
    jsCoalesceV (jsCoalesceV x y) z = jsCoalesceV x (jsCoalesceV y z) := by
  unfold jsCoalesceV
  by_cases hx : x.nullish = true <;> simp [hx]

theorem jsCoalesceV_null (x : JVal) :
    jsCoalesceV x JVal.null = firstNonNullish [x] := by
  show (if x.nullish then JVal.null else x) = _
  by_cases hx : x.nullish = true <;> simp [hx, firstNonNullish]

theorem jsCoalesceV_firstNonNullish (x : JVal) (l : List JVal) :
    jsCoalesceV x (firstNonNullish l) = firstNonNullish (x :: l) := by
  show (if x.nullish then firstNonNullish l else x) = _
  by_cases hx : x.nullish = true <;> simp [hx, firstNonNullish]

theorem coalesce_chain4 (a b c d : JVal) :
    jsCoalesceV (jsCoalesceV (jsCoalesceV (jsCoalesceV a b) c) d) JVal.null =
      firstNonNullish [a, b, c, d] := by
  rw [jsCoalesceV_assoc, jsCoalesceV_assoc, jsCoalesceV_assoc,
    jsCoalesceV_null, jsCoalesceV_firstNonNullish, jsCoalesceV_firstNonNullish,
    jsCoalesceV_firstNonNullish]

theorem coalesce_chain3 (a b c : JVal) :
    jsCoalesceV (jsCoalesceV (jsCoalesceV a b) c) JVal.null =
      firstNonNullish [a, b, c] := by
  rw [jsCoalesceV_assoc, jsCoalesceV_assoc,
    jsCoalesceV_null, jsCoalesceV_firstNonNullish, jsCoalesceV_firstNonNullish]

theorem dropWhile_eq_self_of {p : Char → Bool} {l : List Char}
    (h : ∀ c ∈ l, p c = false) : l.dropWhile p = l := by
  cases l with
  | nil => rfl
  | cons c rest =>
    rw [List.dropWhile_cons_of_neg]
    simp [h c (List.mem_cons_self c rest)]

theorem trimWs_eq_self {l : List Char} (h : ∀ c ∈ l, jsWs c = false) :
    trimWs l = l := by
  unfold trimWs
  rw [dropWhile_eq_self_of h]
  rw [dropWhile_eq_self_of (fun c hc => h c (List.mem_reverse.mp hc))]
  exact List.reverse_reverse l

theorem not_jsWs_of_isDigit {c : Char} (h : c.isDigit = true) : jsWs c = false := by
  cases hw : jsWs c
  · rfl
  · exfalso
    simp only [jsWs, Bool.or_eq_true, decide_eq_true_eq] at hw
    rcases hw with ((((((h1 | h1) | h1) | h1) | h1) | h1) | h1) | h1 <;> subst h1 <;>
      exact absurd h (by decide)

theorem jsWs_dash : jsWs '-' = false := by decide

theorem signSplit_cons_digit {c : Char} (rest : List Char) (hc : c.isDigit = true) :
    signSplit (c :: rest) = (false, c :: rest) := by
  have hcm : c ≠ '-' := by intro h; subst h; exact absurd hc (by decide)
  have hcp : c ≠ '+' := by intro h; subst h; exact absurd hc (by decide)
  unfold signSplit
  split
  · rename_i heq; injection heq with h1 _; exact absurd h1 hcm
  · rename_i heq; injection heq with h1 _; exact absurd h1 hcp
  · rfl

theorem jsStringToNumber_digits {l : List Char} (hne : l ≠ [])
    (hd : ∀ c ∈ l, c.isDigit = true) :
    jsStringToNumber l = JsNum.fin (digitsVal l) := by
  cases l with
  | nil => exact absurd rfl hne
  | cons c rest =>
    have ht : trimWs (c :: rest) = c :: rest :=
      trimWs_eq_self (fun x hx => not_jsWs_of_isDigit (hd x hx))
    have hs : signSplit (c :: rest) = (false, c :: rest) :=
      signSplit_cons_digit rest (hd c (List.mem_cons_self c rest))
    simp only [jsStringToNumber, ht, hs]
    rw [if_neg (by simp), if_pos ⟨by simp, List.all_eq_true.mpr hd⟩]
    simp [digitsVal]

theorem jsStringToNumber_neg_digits {l : List Char} (hne : l ≠ [])
    (hd : ∀ c ∈ l, c.isDigit = true) :
    jsStringToNumber ('-' :: l) = JsNum.fin (-(digitsVal l)) := by
  have hws : ∀ c ∈ '-' :: l, jsWs c = false := by
    intro c hc
    rcases List.mem_cons.mp hc with h | h
    · subst h; exact jsWs_dash
    · exact not_jsWs_of_isDigit (hd c h)
  have ht : trimWs ('-' :: l) = '-' :: l := trimWs_eq_self hws
  have hs : signSplit ('-' :: l) = (true, l) := rfl
  simp only [jsStringToNumber, ht, hs]
  rw [if_neg (by simp), if_pos ⟨hne, List.all_eq_true.mpr hd⟩]
  simp [digitsVal]

/-! # Claim theorems -/

/-- C4 counterexample: a one-element top-level array is not a 2-element
array, yet parseStandings does not yield the empty result for it. -/
theorem parseStandings_one_element_counterexample :
    parseStandings cPayloadOne ≠ { entries := [], races := [] } := by decide

/-- C4 (amended): normalization yields the empty result exactly for
payloads that are not arrays at all; an array of any length (also other
than 2) is processed positionally. -/
theorem parseStandings_non_array_empty (payload : JVal)
    (h : ∀ xs, payload ≠ JVal.arr xs) :
    parseStandings payload = { entries := [], races := [] } := by
  cases payload <;> first
    | rfl
    | exact absurd rfl (h _)

/-- Witness for parseStandings_non_array_empty at the null payload. -/
theorem parseStandings_non_array_empty_witness :
    parseStandings JVal.null = { entries := [], races := [] } :=
  parseStandings_non_array_empty JVal.null (fun _ h => JVal.noConfusion h)

/-- C6: a bare number yields raceIndex = its list index, points null,
raceId taken from the race at that index, and the nullable-numeric coercion
of the value as position; an object resolves points, raceId and position by
first-non-nullish candidate lists, all through toNullableNumber; in
particular a bare 5 at index 2 with the race at index 2 known yields
exactly that race's id and position 5. -/
theorem parseRaceResultItem_shapes (races : List StandingRace) (i : ℕ) (item : JVal) :
    (∀ n : JsNum, item = JVal.num n →
      parseRaceResultItem races i item =
        { raceId := (races.get? i).map (fun r => r.id), raceIndex := i, points := none,
          position := toNullableNumber (JVal.num n) }) ∧
    (∀ fields, item = JVal.obj fields →
      parseRaceResultItem races i item =
        { raceId := toNullableNumber (firstNonNullish
            [item.get "race_id", item.get "raceId", item.get "id", raceIdAtIndex races i])
          raceIndex := i
          points := toNullableNumber (firstNonNullish
            [item.get "points", item.get "championship_points", item.get "score",
             item.get "championship_score"])
          position := toNullableNumber (firstNonNullish
            [item.get "position", item.get "position_cache", item.get "rank"]) }) ∧
    (∀ r2, races.get? 2 = some r2 →
      parseRaceResultItem races 2 (JVal.num (JsNum.fin 5)) =
        { raceId := some r2.id, raceIndex := 2, points := none, position := some 5 }) := by
  refine ⟨?_, ?_, ?_⟩
  · intro n hn
    subst hn
    rfl
  · intro fields hf
    subst hf
    show DriverRaceResult.mk _ _ _ _ = _
    rw [coalesce_chain4, coalesce_chain4, coalesce_chain3]
  · intro r2 h2
    unfold parseRaceResultItem
    rw [h2]
    rfl

/-- Witness for parseRaceResultItem_shapes: Scenario A on the concrete
three-race list. -/
theorem parseRaceResultItem_shapes_witness :
    parseRaceResultItem cRaces 2 (JVal.num (JsNum.fin 5)) =
      { raceId := some 300, raceIndex := 2, points := none, position := some 5 } := by
  have h := (parseRaceResultItem_shapes cRaces 2 (JVal.num (JsNum.fin 5))).2.2
    { id := 300, displayName := "Race C", startsAt := none,
      resultsAvailable := false, ended := false } (by decide)
  simpa using h

/-- C9 counterexample: the cell text "DNF 3" contains the signed-integer
token 3 (parseHtmlNumeric extracts it), yet parseHtmlRacePosition returns
null for it because the token is not at the start. -/
theorem parseHtmlRacePosition_counterexample :
    parseHtmlRacePosition (some "DNF 3".data) = none ∧
      parseHtmlNumeric (some "DNF 3".data) = some 3 := by decide

/-- C9 (amended): parseHtmlRacePosition strips invisibles, collapses and
trims whitespace, returns null on null, on empty or whitespace-only text
and on a bare dash or em-dash, and otherwise accepts only a leading
signed-integer token of the cleaned text (null when there is none); the
em-dash cell parses to null in particular. -/
theorem parseHtmlRacePosition_spec (l : List Char) :
    parseHtmlRacePosition none = none ∧
    parseHtmlRacePosition (some "—".data) = none ∧
    (parseHtmlRacePosition (some l) =
      (let cleaned := trimWs (collapseWs (l.filter (fun c => !invisibleChar c)))
       if cleaned = [] ∨ cleaned = ['-'] ∨ cleaned = ['—'] then none
       else leadingIntValue cleaned)) := by
  refine ⟨rfl, by decide, ?_⟩
  show (if l = [] then none else _) = _
  by_cases hl : l = []
  · subst hl
    decide
  · rw [if_neg hl]
    set cleaned := trimWs (collapseWs (l.filter (fun c => !invisibleChar c))) with hcl
    by_cases hbad : cleaned = [] ∨ cleaned = ['-'] ∨ cleaned = ['—']
    · simp only [hbad, if_pos]
    · rw [if_neg hbad, if_neg hbad]
      cases hc : cleaned with
      | nil => exact absurd (Or.inl hc) hbad
      | cons c rest =>
        simp only [leadingIntValue]
        by_cases hd : c.isDigit = true
        · rw [if_pos hd, if_pos hd]
          have htok : ∀ x ∈ c :: rest.takeWhile Char.isDigit, x.isDigit = true := by
            intro x hx
            rcases List.mem_cons.mp hx with h | h
            · subst h; exact hd
            · exact List.mem_takeWhile_imp h
          show toNullableNumber (JVal.str (String.mk (c :: rest.takeWhile Char.isDigit))) = _
          rw [toNullableNumber_mk, jsStringToNumber_digits (by simp) htok]
        · rw [if_neg hd, if_neg hd]
          by_cases hm : c = '-' ∧ nextIsDigit rest = true
          · rw [if_pos hm]
            obtain ⟨hm1, hm2⟩ := hm
            subst hm1
            cases rest with
            | nil => exact absurd hm2 (by decide)
            | cons d rest2 =>
              have hdd : d.isDigit = true := hm2
              rw [List.takeWhile_cons_of_pos hdd]
              have htok : ∀ x ∈ d :: rest2.takeWhile Char.isDigit, x.isDigit = true := by
                intro x hx
                rcases List.mem_cons.mp hx with h | h
                · subst h; exact hdd
                · exact List.mem_takeWhile_imp h
              show toNullableNumber (JVal.str (String.mk ('-' :: d :: rest2.takeWhile Char.isDigit))) = _
              rw [toNullableNumber_mk, jsStringToNumber_neg_digits (by simp) htok]
              simp [hdd]
          · rw [if_neg hm]
            by_cases hcm : c = '-'
            · subst hcm
              cases rest with
              | nil => rfl
              | cons d rest2 =>
                have hdd : d.isDigit = false := by
                  cases hdt : d.isDigit
                  · rfl
                  · exact absurd ⟨rfl, hdt⟩ hm
                simp [hdd]
            · simp [hcm]

theorem mergeHtmlSnapshot_of_empty (d : ChampionshipStandingsData)
    (s : HtmlStandingsSnapshot) (h : s.raceColumns = [] ∨ s.rows = []) :
    mergeHtmlSnapshot d s = d := by
  unfold mergeHtmlSnapshot
  rw [if_pos]
  rcases h with h | h <;> simp [h]

/-- C7: the orchestrator returns the normalized result as-is (for every
HTML fetch outcome) when some entry already has a race position or there
are no known races; it returns the normalized result unchanged when the
HTML fetch fails, and also when the scrape yields null or an empty
snapshot — the fallback path never surfaces an error. -/
theorem getChampionshipStandings_fallback (payload : JVal) :
    (∀ fetch, (hasRacePositions (parseStandings payload) = true ∨
        (parseStandings payload).races = []) →
      getChampionshipStandings payload fetch = parseStandings payload) ∧
    (∀ e, getChampionshipStandings payload (Except.error e) = parseStandings payload) ∧
    (∀ html, (extractHtmlStandings html = none ∨
        ∃ snap, extractHtmlStandings html = some snap ∧
          (snap.raceColumns = [] ∨ snap.rows = [])) →
      getChampionshipStandings payload (Except.ok html) = parseStandings payload) := by
  refine ⟨?_, ?_, ?_⟩
  · intro fetch h
    unfold getChampionshipStandings
    rcases h with h | h
    · simp [h]
    · simp [h, List.isEmpty_nil]
  · intro e
    unfold getChampionshipStandings
    by_cases hc : (hasRacePositions (parseStandings payload) ||
        (parseStandings payload).races.isEmpty) = true
    · simp [hc]
    · simp [hc]
  · intro html h
    unfold getChampionshipStandings
    by_cases hc : (hasRacePositions (parseStandings payload) ||
        (parseStandings payload).races.isEmpty) = true
    · simp [hc]
    · simp only [hc, if_neg, Bool.false_eq_true]
      unfold mergeHtmlRacePositions
      rcases h with h | ⟨snap, hsnap, hempty⟩
      · rw [h]
        simp
      · rw [hsnap]
        simp [mergeHtmlSnapshot_of_empty _ _ hempty]

/-- Witness for getChampionshipStandings_fallback: the null payload has no
races, so the result is the normalized result for any fetch outcome. -/
theorem getChampionshipStandings_fallback_witness :
    getChampionshipStandings JVal.null (Except.ok "x".data) = parseStandings JVal.null :=
  (getChampionshipStandings_fallback JVal.null).1 (Except.ok "x".data)
    (Or.inr (by decide))

/-! ## normalizeName lemmas -/

theorem not_jsWs_of_isLN {c : Char} (h : isLN c = true) : jsWs c = false := by
  cases hw : jsWs c
  · rfl
  · exfalso
    simp only [jsWs, Bool.or_eq_true, decide_eq_true_eq] at hw
    rcases hw with ((((((h1 | h1) | h1) | h1) | h1) | h1) | h1) | h1 <;> subst h1 <;>
      exact absurd h (by decide)

theorem isLN_space : isLN ' ' = false := by decide

theorem nfkdChar_of_not_mem {c : Char} (h : c ∉ nfkdTable.map (fun p => p.1)) :
    nfkdChar c = [c] := by
  have hf : nfkdTable.find? (fun p => decide (p.1 = c)) = none := by
    rw [List.find?_eq_none]
    intro p hp hpc
    exact h (List.mem_map.mpr ⟨p, hp, by simpa using hpc⟩)
  unfold nfkdChar
  rw [hf]

theorem nfkdChar_of_mem {c : Char} (h : c ∈ nfkdTable.map (fun p => p.1)) :
    ∃ p ∈ nfkdTable, p.1 = c ∧ nfkdChar c = p.2 := by
  have hsome : (nfkdTable.find? (fun p => decide (p.1 = c))).isSome := by
    rw [List.find?_isSome]
    obtain ⟨p, hp, hpc⟩ := List.mem_map.mp h
    exact ⟨p, hp, by simpa using hpc⟩
  obtain ⟨p, hp⟩ := Option.isSome_iff_exists.mp hsome
  refine ⟨p, List.mem_of_find?_eq_some hp, by simpa using List.find?_some hp, ?_⟩
  unfold nfkdChar
  rw [hp]

theorem jsToLower_of_not_mem {c : Char} (h : c ∉ lowerTable.map (fun p => p.1)) :
    jsToLower c = c := by
  have hf : lowerTable.find? (fun p => decide (p.1 = c)) = none := by
    rw [List.find?_eq_none]
    intro p hp hpc
    exact h (List.mem_map.mpr ⟨p, hp, by simpa using hpc⟩)
  unfold jsToLower
  rw [hf]

theorem jsToLower_of_mem {c : Char} (h : c ∈ lowerTable.map (fun p => p.1)) :
    ∃ p ∈ lowerTable, p.1 = c ∧ jsToLower c = p.2 := by
  have hsome : (lowerTable.find? (fun p => decide (p.1 = c))).isSome := by
    rw [List.find?_isSome]
    obtain ⟨p, hp, hpc⟩ := List.mem_map.mp h
    exact ⟨p, hp, by simpa using hpc⟩
  obtain ⟨p, hp⟩ := Option.isSome_iff_exists.mp hsome
  refine ⟨p, List.mem_of_find?_eq_some hp, by simpa using List.find?_some hp, ?_⟩
  unfold jsToLower
  rw [hp]

/-- Per-character stability: every letter-or-digit character produced by the
decompose-then-lowercase stages is fixed by both stages. -/
theorem stable_step (c : Char) :
    ∀ e ∈ (nfkdChar c).map jsToLower, isLN e = true → StableChar e := by
  by_cases hc : c ∈ nfkdTable.map (fun p => p.1)
  · obtain ⟨p, hp, _, heq⟩ := nfkdChar_of_mem hc
    rw [heq]
    intro e he hLN
    have hall : nfkdTable.all (fun q => (q.2.map jsToLower).all
        (fun e => !isLN e || (decide (nfkdChar e = [e]) && decide (jsToLower e = e)))) = true := by
      decide
    have h1 := (List.all_eq_true.mp hall) p hp
    have h2 := (List.all_eq_true.mp h1) e he
    rw [hLN] at h2
    simp only [Bool.not_true, Bool.false_or, Bool.and_eq_true, decide_eq_true_eq] at h2
    exact ⟨h2.1, h2.2⟩
  · rw [nfkdChar_of_not_mem hc]
    intro e he hLN
    simp only [List.map_cons, List.map_nil, List.mem_singleton] at he
    subst he
    by_cases hl : c ∈ lowerTable.map (fun p => p.1)
    · obtain ⟨p, hp, _, heq⟩ := jsToLower_of_mem hl
      rw [heq]
      have hall : lowerTable.all
          (fun q => decide (nfkdChar q.2 = [q.2]) && decide (jsToLower q.2 = q.2)) = true := by
        decide
      have h1 := (List.all_eq_true.mp hall) p hp
      simp only [Bool.and_eq_true, decide_eq_true_eq] at h1
      exact ⟨h1.1, h1.2⟩
    · rw [jsToLower_of_not_mem hl]
      exact ⟨nfkdChar_of_not_mem hc, jsToLower_of_not_mem hl⟩

theorem stage2_chars (l : List Char) :
    ∀ e ∈ lowerStr (nfkdStr l), isLN e = true → StableChar e := by
  intro e he
  simp only [lowerStr, nfkdStr, List.mem_map, List.mem_flatMap] at he
  obtain ⟨d, ⟨c, _, hd⟩, rfl⟩ := he
  exact stable_step c (jsToLower d) (List.mem_map_of_mem _ hd)

theorem replaceNonLNGo_cons_pos {c : Char} {rest : List Char} (hc : isLN c = true) (b : Bool) :
    replaceNonLNGo (c :: rest) b = c :: replaceNonLNGo rest false := by
  simp [replaceNonLNGo, hc]

theorem replaceNonLNGo_cons_neg_true {c : Char} {rest : List Char} (hc : isLN c = false) :
    replaceNonLNGo (c :: rest) true = replaceNonLNGo rest true := by
  simp [replaceNonLNGo, hc]

theorem replaceNonLNGo_cons_neg_false {c : Char} {rest : List Char} (hc : isLN c = false) :
    replaceNonLNGo (c :: rest) false = ' ' :: replaceNonLNGo rest true := by
  simp [replaceNonLNGo, hc]

theorem replaceNonLNGo_chars (l : List Char) :
    ∀ b, ∀ x ∈ replaceNonLNGo l b, (x ∈ l ∧ isLN x = true) ∨ x = ' ' := by
  induction l with
  | nil => intro b x hx; simp [replaceNonLNGo] at hx
  | cons c rest ih =>
    intro b x hx
    cases hc : isLN c with
    | true =>
      rw [replaceNonLNGo_cons_pos hc] at hx
      rcases List.mem_cons.mp hx with h | h
      · exact Or.inl ⟨h ▸ List.mem_cons_self c rest, h ▸ hc⟩
      · rcases ih false x h with ⟨h1, h2⟩ | h1
        · exact Or.inl ⟨List.mem_cons_of_mem c h1, h2⟩
        · exact Or.inr h1
    | false =>
      cases b with
      | true =>
        rw [replaceNonLNGo_cons_neg_true hc] at hx
        rcases ih true x hx with ⟨h1, h2⟩ | h1
        · exact Or.inl ⟨List.mem_cons_of_mem c h1, h2⟩
        · exact Or.inr h1
      | false =>
        rw [replaceNonLNGo_cons_neg_false hc] at hx
        rcases List.mem_cons.mp hx with h | h
        · exact Or.inr h
        · rcases ih true x h with ⟨h1, h2⟩ | h1
          · exact Or.inl ⟨List.mem_cons_of_mem c h1, h2⟩
          · exact Or.inr h1

theorem replaceNonLNGo_head_true (l : List Char) :
    ∀ x, (replaceNonLNGo l true).head? = some x → isLN x = true := by
  induction l with
  | nil => intro x hx; simp [replaceNonLNGo] at hx
  | cons c rest ih =>
    intro x hx
    cases hc : isLN c with
    | true =>
      rw [replaceNonLNGo_cons_pos hc, List.head?_cons] at hx
      injection hx with hx
      exact hx ▸ hc
    | false =>
      rw [replaceNonLNGo_cons_neg_true hc] at hx
      exact ih x hx

theorem replaceNonLNGo_chain (l : List Char) :
    ∀ b, (replaceNonLNGo l b).Chain' (fun a b => ¬(a = ' ' ∧ b = ' ')) := by
  induction l with
  | nil => intro b; simp [replaceNonLNGo]
  | cons c rest ih =>
    intro b
    cases hc : isLN c with
    | true =>
      rw [replaceNonLNGo_cons_pos hc, List.chain'_cons']
      refine ⟨?_, ih false⟩
      intro y _ hcon
      rw [hcon.1] at hc
      exact absurd hc (by decide)
    | false =>
      cases b with
      | true =>
        rw [replaceNonLNGo_cons_neg_true hc]
        exact ih true
      | false =>
        rw [replaceNonLNGo_cons_neg_false hc, List.chain'_cons']
        refine ⟨?_, ih true⟩
        intro y hy hcon
        have := replaceNonLNGo_head_true rest y hy
        rw [hcon.2] at this
        exact absurd this (by decide)

theorem replaceNonLNGo_true_eq_false {l : List Char}
    (h : ∀ x, l.head? = some x → isLN x = true) :
    replaceNonLNGo l true = replaceNonLNGo l false := by
  cases l with
  | nil => rfl
  | cons d r =>
    have hd := h d rfl
    rw [replaceNonLNGo_cons_pos hd, replaceNonLNGo_cons_pos hd]

theorem head_mem_of_head?_eq {l : List Char} {x : Char} (hx : l.head? = some x) : x ∈ l := by
  cases l with
  | nil => simp at hx
  | cons d r =>
    rw [List.head?_cons] at hx
    injection hx with hx
    exact hx ▸ List.mem_cons_self d r

theorem replaceNonLNGo_eq_self {l : List Char}
    (hchars : ∀ x ∈ l, isLN x = true ∨ x = ' ')
    (hchain : l.Chain' (fun a b => ¬(a = ' ' ∧ b = ' '))) :
    replaceNonLNGo l false = l := by
  induction l with
  | nil => rfl
  | cons c rest ih =>
    have htail := (List.chain'_cons'.mp hchain).2
    have hhead := (List.chain'_cons'.mp hchain).1
    have ihr := ih (fun x hx => hchars x (List.mem_cons_of_mem c hx)) htail
    rcases hchars c (List.mem_cons_self c rest) with hc | hc
    · rw [replaceNonLNGo_cons_pos hc, ihr]
    · subst hc
      rw [replaceNonLNGo_cons_neg_false isLN_space]
      rw [replaceNonLNGo_true_eq_false, ihr]
      intro x hx
      have hxm : x ∈ rest := head_mem_of_head?_eq hx
      rcases hchars x (List.mem_cons_of_mem ' ' hxm) with h | h
      · exact h
      · subst h
        exact absurd (hhead ' ' hx) (fun hcon => hcon ⟨rfl, rfl⟩)

theorem collapseWsGo_cons_not {c : Char} {rest : List Char} (hc : jsWs c = false) (b : Bool) :
    collapseWsGo (c :: rest) b = c :: collapseWsGo rest false := by
  simp [collapseWsGo, hc]

theorem collapseWsGo_cons_ws_true {c : Char} {rest : List Char} (hc : jsWs c = true) :
    collapseWsGo (c :: rest) true = collapseWsGo rest true := by
  simp [collapseWsGo, hc]

theorem collapseWsGo_cons_ws_false {c : Char} {rest : List Char} (hc : jsWs c = true) :
    collapseWsGo (c :: rest) false = ' ' :: collapseWsGo rest true := by
  simp [collapseWsGo, hc]

theorem collapseWsGo_true_eq_false {l : List Char}
    (h : ∀ x, l.head? = some x → jsWs x = false) :
    collapseWsGo l true = collapseWsGo l false := by
  cases l with
  | nil => rfl
  | cons d r =>
    have hd := h d rfl
    rw [collapseWsGo_cons_not hd, collapseWsGo_cons_not hd]

theorem collapseWsGo_eq_self {l : List Char}
    (hchars : ∀ x ∈ l, isLN x = true ∨ x = ' ')
    (hchain : l.Chain' (fun a b => ¬(a = ' ' ∧ b = ' '))) :
    collapseWsGo l false = l := by
  induction l with
  | nil => rfl
  | cons c rest ih =>
    have htail := (List.chain'_cons'.mp hchain).2
    have hhead := (List.chain'_cons'.mp hchain).1
    have ihr := ih (fun x hx => hchars x (List.mem_cons_of_mem c hx)) htail
    rcases hchars c (List.mem_cons_self c rest) with hc | hc
    · rw [collapseWsGo_cons_not (not_jsWs_of_isLN hc), ihr]
    · subst hc
      rw [collapseWsGo_cons_ws_false (by decide)]
      rw [collapseWsGo_true_eq_false, ihr]
      intro x hx
      have hxm : x ∈ rest := head_mem_of_head?_eq hx
      rcases hchars x (List.mem_cons_of_mem ' ' hxm) with h | h
      · exact not_jsWs_of_isLN h
      · subst h
        exact absurd (hhead ' ' hx) (fun hcon => hcon ⟨rfl, rfl⟩)

theorem trimWs_subset {l : List Char} : ∀ x ∈ trimWs l, x ∈ l := by
  intro x hx
  unfold trimWs at hx
  rw [List.mem_reverse] at hx
  have h1 := (List.dropWhile_sublist jsWs (l := (l.dropWhile jsWs).reverse)).mem hx
  rw [List.mem_reverse] at h1
  exact (List.dropWhile_sublist jsWs (l := l)).mem h1

theorem chain'_trimWs {R : Char → Char → Prop} (hsym : ∀ a b, R a b → R b a)
    {l : List Char} (h : l.Chain' R) : (trimWs l).Chain' R := by
  unfold trimWs
  have h1 : (l.dropWhile jsWs).Chain' R := by
    have := List.takeWhile_append_dropWhile (p := jsWs) (l := l)
    exact List.Chain'.right_of_append (this ▸ h)
  have h2 : ((l.dropWhile jsWs).reverse).Chain' R := by
    rw [List.chain'_reverse]
    exact h1.imp (fun a b hab => hsym a b hab)
  have h3 : (((l.dropWhile jsWs).reverse.dropWhile jsWs)).Chain' R := by
    have := List.takeWhile_append_dropWhile (p := jsWs) (l := (l.dropWhile jsWs).reverse)
    exact List.Chain'.right_of_append (this ▸ h2)
  rw [List.chain'_reverse]
  exact h3.imp (fun a b hab => hsym a b hab)

theorem trimWs_head_not_ws {l : List Char} :
    ∀ x, (trimWs l).head? = some x → jsWs x = false := by
  intro x hx
  unfold trimWs at hx
  rw [List.head?_reverse] at hx
  set b := (l.dropWhile jsWs).reverse.dropWhile jsWs with hb
  cases hbe : b with
  | nil => rw [hbe] at hx; simp at hx
  | cons y ys =>
    have hsuf : b <:+ (l.dropWhile jsWs).reverse := List.dropWhile_suffix jsWs
    obtain ⟨t, ht⟩ := hsuf
    have hgl : b.getLast? = ((l.dropWhile jsWs).reverse).getLast? := by
      rw [← ht, List.getLast?_append_of_ne_nil]
      rw [hbe]
      simp
    rw [hgl, List.getLast?_reverse] at hx
    cases hld : l.dropWhile jsWs with
    | nil => rw [hld] at hx; simp at hx
    | cons z zs =>
      rw [hld] at hx
      simp only [List.head?_cons, Option.some.injEq] at hx
      subst hx
      have := List.head?_dropWhile_not jsWs l
      rw [hld] at this
      simpa using this

theorem trimWs_getLast_not_ws {l : List Char} :
    ∀ x, (trimWs l).getLast? = some x → jsWs x = false := by
  intro x hx
  unfold trimWs at hx
  rw [List.getLast?_reverse] at hx
  have := List.head?_dropWhile_not jsWs (l.dropWhile jsWs).reverse
  rw [hx] at this
  simpa using this

theorem trimWs_eq_self_of_ends {l : List Char}
    (hh : ∀ x, l.head? = some x → jsWs x = false)
    (hl : ∀ x, l.getLast? = some x → jsWs x = false) :
    trimWs l = l := by
  unfold trimWs
  have h1 : l.dropWhile jsWs = l := by
    cases l with
    | nil => rfl
    | cons c rest => exact List.dropWhile_cons_of_neg (by simp [hh c rfl])
  rw [h1]
  have h2 : l.reverse.dropWhile jsWs = l.reverse := by
    cases hr : l.reverse with
    | nil => rfl
    | cons c rest =>
      have hc : l.getLast? = some c := by
        rw [← List.head?_reverse, hr, List.head?_cons]
      rw [← hr]
      cases l with
      | nil => rfl
      | cons d ds =>
        rw [hr]
        exact List.dropWhile_cons_of_neg (by simp [hl c hc])
  rw [h2, List.reverse_reverse]

/-- The output of normalizeName has the NormOut shape. -/
theorem normOut_normalizeNameL (l : List Char) : NormOut (normalizeNameL l) := by
  set s2 := lowerStr (nfkdStr l) with hs2
  set s3 := replaceNonLNGo s2 false with hs3
  set s4 := trimWs s3 with hs4
  have hs3chars : ∀ x ∈ s3, (isLN x = true ∧ StableChar x) ∨ x = ' ' := by
    intro x hx
    rcases replaceNonLNGo_chars s2 false x hx with ⟨h1, h2⟩ | h1
    · exact Or.inl ⟨h2, stage2_chars l x h1 h2⟩
    · exact Or.inr h1
  have hs3chain : s3.Chain' (fun a b => ¬(a = ' ' ∧ b = ' ')) := replaceNonLNGo_chain s2 false
  have hs4chars : ∀ x ∈ s4, (isLN x = true ∧ StableChar x) ∨ x = ' ' :=
    fun x hx => hs3chars x (trimWs_subset x hx)
  have hs4chain : s4.Chain' (fun a b => ¬(a = ' ' ∧ b = ' ')) :=
    chain'_trimWs (fun a b hab hc => hab ⟨hc.2, hc.1⟩) hs3chain
  have hs4head : s4.head? ≠ some ' ' := by
    intro hcon
    have := trimWs_head_not_ws (l := s3) ' ' (hs4 ▸ hcon)
    exact absurd this (by decide)
  have hs4last : s4.getLast? ≠ some ' ' := by
    intro hcon
    have := trimWs_getLast_not_ws (l := s3) ' ' (hs4 ▸ hcon)
    exact absurd this (by decide)
  have hcoll : collapseWsGo s4 false = s4 :=
    collapseWsGo_eq_self (fun x hx => (hs4chars x hx).imp (fun h => h.1) id) hs4chain
  have hnn : normalizeNameL l = s4 := by
    show collapseWs (trimWs (replaceNonLN (lowerStr (nfkdStr l)))) = s4
    rw [← hs2]
    show collapseWsGo (trimWs (replaceNonLNGo s2 false)) false = s4
    rw [← hs3, ← hs4]
    exact hcoll
  rw [hnn]
  exact ⟨hs4chars, hs4chain, hs4head, hs4last⟩

theorem nfkdStr_eq_self {l : List Char} (h : ∀ c ∈ l, nfkdChar c = [c]) :
    nfkdStr l = l := by
  unfold nfkdStr
  calc l.flatMap nfkdChar = l.flatMap (fun x => [x]) := by
        induction l with
        | nil => rfl
        | cons c rest ih =>
          rw [List.flatMap_cons, List.flatMap_cons, h c (List.mem_cons_self c rest),
            ih (fun x hx => h x (List.mem_cons_of_mem c hx))]
    _ = l := List.flatMap_singleton' l

theorem space_stable : StableChar ' ' := ⟨by decide, by decide⟩

/-- normalizeName is the identity on its own outputs. -/
theorem normalizeNameL_eq_self {l : List Char} (h : NormOut l) : normalizeNameL l = l := by
  obtain ⟨hchars, hchain, hhead, hlast⟩ := h
  have hstable : ∀ c ∈ l, StableChar c := by
    intro c hc
    rcases hchars c hc with ⟨_, hs⟩ | hs
    · exact hs
    · exact hs ▸ space_stable
  have h1 : nfkdStr l = l := nfkdStr_eq_self (fun c hc => (hstable c hc).1)
  have h2 : lowerStr l = l := by
    unfold lowerStr
    rw [List.map_congr_left (fun c hc => (hstable c hc).2)]
    exact List.map_id l
  have hchars' : ∀ x ∈ l, isLN x = true ∨ x = ' ' :=
    fun x hx => (hchars x hx).imp (fun h => h.1) id
  have h3 : replaceNonLN l = l := replaceNonLNGo_eq_self hchars' hchain
  have h4 : trimWs l = l := by
    apply trimWs_eq_self_of_ends
    · intro x hx
      have hxm : x ∈ l := by
        cases l with
        | nil => simp at hx
        | cons c rest =>
          simp only [List.head?_cons, Option.some.injEq] at hx
          exact hx ▸ List.mem_cons_self c rest
      rcases hchars' x hxm with hr | hr
      · exact not_jsWs_of_isLN hr
      · exact absurd (hr ▸ hx) hhead
    · intro x hx
      have hxm : x ∈ l := List.mem_of_getLast?_eq_some hx
      rcases hchars' x hxm with hr | hr
      · exact not_jsWs_of_isLN hr
      · exact absurd (hr ▸ hx) hlast
  have h5 : collapseWs l = l := collapseWsGo_eq_self hchars' hchain
  show collapseWs (trimWs (replaceNonLN (lowerStr (nfkdStr l)))) = l
  rw [h1, h2, h3, h4, h5]

/-- C3 counterexample: the code is not diacritic-insensitive in the claimed
sense — a mid-word combining mark becomes a word separator. -/
theorem normalizeName_jose_counterexample :
    normalizeName "José  Ruíz" ≠ normalizeName "jose ruiz" := by decide

/-- C3 (amended): normalizeName is idempotent and case-insensitive, but a
mid-word diacritic splits the word: the decomposed combining mark is a
non-letter and becomes a space, so "José  Ruíz" normalizes to
"jose rui z", not to "jose ruiz". -/
theorem normalizeName_idempotent :
    (∀ s : String, normalizeName (normalizeName s) = normalizeName s) ∧
    normalizeName "José  Ruíz" = normalizeName "JOSÉ  RUÍZ" ∧
    normalizeName "José  Ruíz" = "jose rui z" ∧
    normalizeName "jose ruiz" = "jose ruiz" := by
  refine ⟨?_, by decide, by decide, by decide⟩
  intro s
  show String.mk (normalizeNameL (String.mk (normalizeNameL s.data)).data) = _
  exact congrArg String.mk (normalizeNameL_eq_self (normOut_normalizeNameL s.data))

/-! ## Standings-order lemmas -/

theorem strCmp_ne_gt_iff {a b : String} : (strCmp a b ≠ Ordering.gt) ↔ a ≤ b := by
  unfold strCmp
  by_cases h1 : a < b
  · rw [if_pos h1]
    simp [le_of_lt h1]
  · by_cases h2 : a = b
    · rw [if_neg h1, if_pos h2]
      simp [le_of_eq h2]
    · rw [if_neg h1, if_neg h2]
      constructor
      · intro hcon; exact absurd rfl hcon
      · intro hle; exact absurd (le_antisymm hle (not_lt.mp h1)) h2

theorem standingsLe_iff {a b : StandingEntry} :
    standingsLe a b = true ↔ standingsSpecLe a b := by
  unfold standingsLe sortStandings standingsSpecLe effPos
  rcases ha : a.position with _ | x <;> rcases hb : b.position with _ | y <;>
    simp only [optPosCmp]
  · -- both null: equal effective positions
    simp only [decide_eq_true_eq, not_top_lt, false_or, true_and, reduceCtorEq]
    rw [if_neg (by simp)]
    by_cases hs : a.score = b.score
    · rw [if_neg (by simpa using hs)]
      rw [strCmp_ne_gt_iff]
      simp [hs, lt_irrefl]
    · rw [if_pos (by simpa using hs)]
      by_cases hlt : b.score < a.score
      · simp [hlt]
      · simp only [hlt, if_neg, Bool.false_eq_true, if_false]
        simp [hlt, hs, Ne.symm hs]
  · -- a null, b not: a sorts after b
    simp only [decide_eq_true_eq]
    rw [if_pos (by simp)]
    simp [not_top_lt, WithTop.top_ne_coe]
  · -- a not, b null: a sorts before b
    simp only [decide_eq_true_eq]
    rw [if_pos (by simp)]
    simp [WithTop.coe_lt_top]
  · -- both numeric
    by_cases hxy : x < y
    · rw [if_pos hxy]
      rw [if_pos (by simp)]
      simp [WithTop.coe_lt_coe, hxy]
    · by_cases heq : x = y
      · rw [if_neg hxy, if_pos heq]
        rw [if_neg (by simp)]
        simp only [decide_eq_true_eq, WithTop.coe_lt_coe, hxy, false_or,
          WithTop.coe_eq_coe, heq, true_and]
        by_cases hs : a.score = b.score
        · rw [if_neg (by simpa using hs)]
          rw [strCmp_ne_gt_iff]
          simp [hs, lt_irrefl]
        · rw [if_pos (by simpa using hs)]
          by_cases hlt : b.score < a.score
          · simp [hlt]
          · simp only [hlt, if_neg, Bool.false_eq_true, if_false]
            simp [hlt, hs, Ne.symm hs]
      · rw [if_neg hxy, if_neg heq]
        rw [if_pos (by simp)]
        simp [WithTop.coe_lt_coe, hxy, WithTop.coe_eq_coe, heq]

theorem standingsSpecLe_total (a b : StandingEntry) :
    standingsSpecLe a b ∨ standingsSpecLe b a := by
  rcases lt_trichotomy (effPos a) (effPos b) with h | h | h
  · exact Or.inl (Or.inl h)
  · rcases lt_trichotomy b.score a.score with hs | hs | hs
    · exact Or.inl (Or.inr ⟨h, Or.inl hs⟩)
    · rcases le_total a.displayName b.displayName with hn | hn
      · exact Or.inl (Or.inr ⟨h, Or.inr ⟨hs.symm, hn⟩⟩)
      · exact Or.inr (Or.inr ⟨h.symm, Or.inr ⟨hs, hn⟩⟩)
    · exact Or.inr (Or.inr ⟨h.symm, Or.inl hs⟩)
  · exact Or.inr (Or.inl h)

theorem standingsSpecLe_trans (a b c : StandingEntry) :
    standingsSpecLe a b → standingsSpecLe b c → standingsSpecLe a c := by
  rintro (h1 | ⟨h1, h1s⟩) (h2 | ⟨h2, h2s⟩)
  · exact Or.inl (h1.trans h2)
  · exact Or.inl (h2 ▸ h1)
  · exact Or.inl (h1 ▸ h2)
  · refine Or.inr ⟨h1.trans h2, ?_⟩
    rcases h1s with hs1 | ⟨hs1, hn1⟩ <;> rcases h2s with hs2 | ⟨hs2, hn2⟩
    · exact Or.inl (hs2.trans hs1)
    · refine Or.inl ?_
      rw [← hs2]
      exact hs1
    · refine Or.inl ?_
      rw [hs1]
      exact hs2
    · exact Or.inr ⟨hs1.trans hs2, hn1.trans hn2⟩

/-- C5: the entries of every normalized result are pairwise in the
standings order (non-decreasing effective position with null as positive
infinity, then non-increasing score, then non-decreasing name); the order
is total; and the sort is stable: any pair already in order in the input
list stays in that order in the sorted list. -/
theorem parseStandings_entries_sorted (payload : JVal) :
    (parseStandings payload).entries.Pairwise standingsSpecLe ∧
    (∀ a b : StandingEntry, standingsLe a b = true ∨ standingsLe b a = true) ∧
    (∀ (l : List StandingEntry) (a b : StandingEntry),
      List.Sublist [a, b] l → standingsLe a b = true →
      List.Sublist [a, b] (List.insertionSort (fun x y => standingsLe x y = true) l)) := by
  have htotal : ∀ a b : StandingEntry, standingsLe a b = true ∨ standingsLe b a = true := by
    intro a b
    rcases standingsSpecLe_total a b with h | h
    · exact Or.inl (standingsLe_iff.mpr h)
    · exact Or.inr (standingsLe_iff.mpr h)
  refine ⟨?_, htotal, ?_⟩
  · cases payload with
    | arr xs =>
      haveI hT : IsTotal StandingEntry (fun x y => standingsLe x y = true) := ⟨htotal⟩
      haveI hR : IsTrans StandingEntry (fun x y => standingsLe x y = true) := ⟨by
        intro a b c h1 h2
        exact standingsLe_iff.mpr
          (standingsSpecLe_trans a b c (standingsLe_iff.mp h1) (standingsLe_iff.mp h2))⟩
      have hs := List.sorted_insertionSort (fun x y => standingsLe x y = true)
        ((match xs.getD 0 JVal.undef with
          | JVal.arr es => es
          | _ => []).map (fun e => parseStandingEntry e (parseRaces (xs.getD 1 JVal.undef))))
      exact hs.imp (fun h => standingsLe_iff.mp h)
    | null => exact List.Pairwise.nil
    | undef => exact List.Pairwise.nil
    | bool b => exact List.Pairwise.nil
    | num n => exact List.Pairwise.nil
    | str s => exact List.Pairwise.nil
    | obj fields => exact List.Pairwise.nil
  · intro l a b hsub hle
    exact List.pair_sublist_insertionSort hle hsub

/-- Witness for parseStandings_entries_sorted: a concrete in-order pair
stays in order through the sort. -/
theorem parseStandings_entries_sorted_witness :
    List.Sublist [cEntryBob, cEntryAnn]
      (List.insertionSort (fun x y => standingsLe x y = true) [cEntryBob, cEntryAnn]) :=
  (parseStandings_entries_sorted JVal.null).2.2 [cEntryBob, cEntryAnn] cEntryBob cEntryAnn
    (List.Sublist.refl _) (by decide)

/-! ## Scraper lemmas -/

theorem dedupSeen_cons_mem {seen : List ℚ} {q : ℚ} {rest : List ℚ}
    (hc : seen.contains q = true) :
    dedupSeen seen (q :: rest) = dedupSeen seen rest := by
  show (if seen.contains q = true then dedupSeen seen rest
    else q :: dedupSeen (seen ++ [q]) rest) = dedupSeen seen rest
  rw [if_pos hc]

theorem dedupSeen_cons_not {seen : List ℚ} {q : ℚ} {rest : List ℚ}
    (hc : seen.contains q = false) :
    dedupSeen seen (q :: rest) = q :: dedupSeen (seen ++ [q]) rest := by
  show (if seen.contains q = true then dedupSeen seen rest
    else q :: dedupSeen (seen ++ [q]) rest) = q :: dedupSeen (seen ++ [q]) rest
  rw [if_neg (by rw [hc]; simp)]

theorem raceColumns_fold (tokens : List (List Char)) :
    ∀ (cols : List HtmlRaceColumn) (seen : List ℚ),
    cols.map (fun c => c.raceId) = seen.map some →
    cols.map (fun c => c.raceIndex) = List.range seen.length →
    (tokens.foldl raceColumnsStep (cols, seen)).1.map (fun c => c.raceId) =
        (seen ++ dedupSeen seen (tokens.filterMap
          (fun tok => toNullableNumber (JVal.str (String.mk tok))))).map some ∧
    (tokens.foldl raceColumnsStep (cols, seen)).1.map (fun c => c.raceIndex) =
        List.range (seen ++ dedupSeen seen (tokens.filterMap
          (fun tok => toNullableNumber (JVal.str (String.mk tok))))).length := by
  induction tokens with
  | nil =>
    intro cols seen h1 h2
    simp only [List.foldl_nil, List.filterMap_nil, dedupSeen, List.append_nil]
    exact ⟨h1, h2⟩
  | cons tok rest ih =>
    intro cols seen h1 h2
    rw [List.foldl_cons, List.filterMap_cons]
    cases hp : toNullableNumber (JVal.str (String.mk tok)) with
    | none =>
      have hstep : raceColumnsStep (cols, seen) tok = (cols, seen) := by
        unfold raceColumnsStep
        rw [hp]
      rw [hstep]
      exact ih cols seen h1 h2
    | some q =>
      cases hc : seen.contains q with
      | true =>
        have hstep : raceColumnsStep (cols, seen) tok = (cols, seen) := by
          unfold raceColumnsStep
          rw [hp]
          exact if_pos hc
        rw [hstep, dedupSeen_cons_mem hc]
        exact ih cols seen h1 h2
      | false =>
        have hlen : cols.length = seen.length := by
          have := congrArg List.length h1
          simpa using this
        have hstep : raceColumnsStep (cols, seen) tok =
            (cols ++ [({ raceId := some q, raceIndex := cols.length } : HtmlRaceColumn)],
              seen ++ [q]) := by
          unfold raceColumnsStep
          rw [hp]
          exact if_neg (by rw [hc]; simp)
        rw [hstep, dedupSeen_cons_not hc]
        have h1' : (cols ++ [({ raceId := some q, raceIndex := cols.length } :
            HtmlRaceColumn)]).map (fun c => c.raceId) = (seen ++ [q]).map some := by
          simp [h1]
        have h2' : (cols ++ [({ raceId := some q, raceIndex := cols.length } :
            HtmlRaceColumn)]).map (fun c => c.raceIndex) = List.range (seen ++ [q]).length := by
          simp only [List.map_append, h2, List.map_cons, List.map_nil,
            List.length_append, List.length_cons, List.length_nil]
          rw [hlen, List.range_succ]
        have := ih _ _ h1' h2'
        simpa [List.append_assoc] using this

theorem buildRaceColumns_spec (tokens : List (List Char)) :
    (buildRaceColumns tokens).map (fun c => c.raceId) =
      (dedupKeepFirst (tokens.filterMap
        (fun tok => toNullableNumber (JVal.str (String.mk tok))))).map some ∧
    (buildRaceColumns tokens).map (fun c => c.raceIndex) =
      List.range (dedupKeepFirst (tokens.filterMap
        (fun tok => toNullableNumber (JVal.str (String.mk tok))))).length := by
  have h := raceColumns_fold tokens [] [] rfl rfl
  unfold buildRaceColumns dedupKeepFirst
  simpa using h

set_option maxRecDepth 40000

/-- C8 counterexample: a page with the marker table and one entrant-name
row but no race_id tokens yields a snapshot with empty raceColumns, not
null — the claimed "null when no race columns were found" is false. -/
theorem extractHtmlStandings_counterexample :
    extractHtmlStandings cHtmlNoCols =
      some { raceColumns := []
             rows := [{ normalizedName := "bob", position := none, racePositions := [] }] } := by
  decide

/-- C8 (amended): the scraper returns null exactly when no table block with
both marker class tokens is found or when no entrant-name data rows were
found — an empty race-column list alone does not produce null; and a
returned snapshot's race columns are the first occurrences of each distinct
numeric race_id token of the table block in document order, indexed in
sequence. -/
theorem extractHtmlStandings_spec (html : List Char) :
    (extractHtmlStandings html = none ↔
      (tableBlock html = none ∨
        (matchAll trPats ((tableBlock html).getD [])).all
          (fun m => !containsSub "entrant-name".data m.1) = true)) ∧
    (∀ snap, extractHtmlStandings html = some snap →
      snap.raceColumns.map (fun c => c.raceId) =
        (dedupKeepFirst (raceIdTokens ((tableBlock html).getD []))).map some ∧
      snap.raceColumns.map (fun c => c.raceIndex) =
        List.range (dedupKeepFirst (raceIdTokens ((tableBlock html).getD []))).length) := by
  cases hf : findMatchPos tablePats html with
  | none =>
    have he : extractHtmlStandings html = none := by
      unfold extractHtmlStandings
      rw [hf]
    have htb : tableBlock html = none := by
      unfold tableBlock
      rw [hf]
      rfl
    rw [he, htb]
    refine ⟨?_, ?_⟩
    · simp
    · intro snap hsnap
      exact absurd hsnap (by simp)
  | some r =>
    obtain ⟨s, n, caps⟩ := r
    set tbl := (html.drop s).take n with htbl
    set raceColumns := buildRaceColumns
      ((matchAll raceIdPats tbl).map (fun m => m.2.headD [])) with hrc
    set rows := (matchAll trPats tbl).filterMap (fun m =>
      if containsSub "entrant-name".data m.1 then some (buildRow raceColumns m.1)
      else none) with hrows
    have htb : tableBlock html = some tbl := by
      unfold tableBlock
      rw [hf]
      rfl
    have he : extractHtmlStandings html =
        (if rows.length > 0 then some { raceColumns := raceColumns, rows := rows }
         else none) := by
      unfold extractHtmlStandings
      rw [hf]
    rw [he, htb]
    simp only [Option.getD_some]
    refine ⟨?_, ?_⟩
    · by_cases hlen : rows.length > 0
      · rw [if_pos hlen]
        constructor
        · intro hcon; exact absurd hcon (by simp)
        · intro hcon
          rcases hcon with hcon | hcon
          · exact absurd hcon (by simp)
          · exfalso
            have hnil : rows = [] := by
              rw [hrows, List.filterMap_eq_nil_iff]
              intro m hm
              have := (List.all_eq_true.mp hcon) m hm
              simp only [Bool.not_eq_true'] at this
              simp [this]
            rw [hnil] at hlen
            exact absurd hlen (by simp)
      · rw [if_neg hlen]
        constructor
        · intro _
          right
          rw [List.all_eq_true]
          intro m hm
          have hnil : rows = [] := by
            cases hr : rows with
            | nil => rfl
            | cons a l => rw [hr] at hlen; exact absurd (by simp) hlen
          by_cases hcs : containsSub "entrant-name".data m.1 = true
          · exfalso
            have : some (buildRow raceColumns m.1) ∈ rows.map some := by
              rw [hrows]
              have : buildRow raceColumns m.1 ∈ (matchAll trPats tbl).filterMap (fun m =>
                  if containsSub "entrant-name".data m.1 then some (buildRow raceColumns m.1)
                  else none) := by
                rw [List.mem_filterMap]
                exact ⟨m, hm, by rw [if_pos hcs]⟩
              exact List.mem_map_of_mem some this
            rw [hnil] at this
            simp at this
          · simp [hcs]
        · intro _
          rfl
    · intro snap hsnap
      by_cases hlen : rows.length > 0
      · rw [if_pos hlen] at hsnap
        injection hsnap with hsnap
        have hcols : snap.raceColumns = raceColumns := by rw [← hsnap]
        rw [hcols, hrc]
        have h := buildRaceColumns_spec ((matchAll raceIdPats tbl).map (fun m => m.2.headD []))
        unfold raceIdTokens
        exact h
      · rw [if_neg hlen] at hsnap
        exact absurd hsnap (by simp)

/-- Witness for extractHtmlStandings_spec: the concrete page with tokens
12, 34, 12 yields columns [12, 34] with indexes [0, 1]. -/
theorem extractHtmlStandings_spec_witness :
    ({ raceColumns := [{ raceId := some 12, raceIndex := 0 },
                       { raceId := some 34, raceIndex := 1 }]
       rows := [{ normalizedName := "bob", position := none,
                  racePositions := [none, none] }] } :
        HtmlStandingsSnapshot).raceColumns.map (fun c => c.raceId) =
      (dedupKeepFirst (raceIdTokens ((tableBlock cHtmlCols).getD []))).map some := by
  have h := (extractHtmlStandings_spec cHtmlCols).2
    { raceColumns := [{ raceId := some 12, raceIndex := 0 },
                      { raceId := some 34, raceIndex := 1 }]
      rows := [{ normalizedName := "bob", position := none,
                 racePositions := [none, none] }] } (by decide)
  exact h.1

/-! ## Merger map lemmas -/

theorem jsCoalesce_absorb {α : Type} (a b : Option α) :
    jsCoalesce (jsCoalesce a b) b = jsCoalesce a b := by
  cases a <;> cases b <;> rfl

theorem jsCoalesce_self {α : Type} (a : Option α) : jsCoalesce a a = a := by
  cases a <;> rfl

theorem mapGet_mapSet_self (m : List (ℕ × DriverRaceResult)) (k : ℕ) (v : DriverRaceResult) :
    mapGet (mapSet m k v) k = some v := by
  unfold mapSet mapGet
  by_cases hany : m.any (fun p => p.1 = k) = true
  · rw [if_pos hany]
    induction m with
    | nil => simp at hany
    | cons p rest ih =>
      by_cases hp : p.1 = k
      · simp [hp]
      · have hany' : rest.any (fun p => p.1 = k) = true := by
          rcases List.any_eq_true.mp hany with ⟨x, hx, hxk⟩
          rcases List.mem_cons.mp hx with h | h
          · exact absurd (by simpa using hxk) (h ▸ hp)
          · exact List.any_eq_true.mpr ⟨x, h, hxk⟩
        have := ih hany'
        simp only [List.map_cons, if_neg hp]
        rw [List.find?_cons_of_neg]
        · exact this
        · simpa using hp
  · rw [if_neg hany]
    induction m with
    | nil => simp
    | cons p rest ih =>
      have hp : ¬ p.1 = k := by
        intro hcon
        exact hany (List.any_eq_true.mpr ⟨p, List.mem_cons_self p rest, by simpa using hcon⟩)
      have hany' : ¬ rest.any (fun p => p.1 = k) = true := by
        intro hcon
        rcases List.any_eq_true.mp hcon with ⟨x, hx, hxk⟩
        exact hany (List.any_eq_true.mpr ⟨x, List.mem_cons_of_mem p hx, hxk⟩)
      simp only [List.cons_append]
      rw [List.find?_cons_of_neg]
      · exact ih hany'
      · simpa using hp

theorem mapGet_mapSet_ne (m : List (ℕ × DriverRaceResult)) {k j : ℕ}
    (v : DriverRaceResult) (h : j ≠ k) :
    mapGet (mapSet m k v) j = mapGet m j := by
  unfold mapSet mapGet
  by_cases hany : m.any (fun p => p.1 = k) = true
  · rw [if_pos hany]
    clear hany
    induction m with
    | nil => rfl
    | cons p rest ih =>
      by_cases hp : p.1 = k
      · have hpj : ¬ p.1 = j := by rw [hp]; exact fun hc => h hc.symm
        simp only [List.map_cons, if_pos hp]
        rw [List.find?_cons_of_neg, List.find?_cons_of_neg]
        · exact ih
        · simpa using hpj
        · simpa using fun hc => h hc.symm
      · simp only [List.map_cons, if_neg hp]
        by_cases hpj : p.1 = j
        · rw [List.find?_cons_of_pos, List.find?_cons_of_pos] <;> simp [hpj]
        · rw [List.find?_cons_of_neg, List.find?_cons_of_neg]
          · exact ih
          · simpa using hpj
          · simpa using hpj
  · rw [if_neg hany]
    induction m with
    | nil =>
      simp only [List.nil_append]
      have hside : ¬ (decide (((k, v) : ℕ × DriverRaceResult).1 = j)) = true := by
        simp only [decide_eq_true_eq]
        exact fun hc => h hc.symm
      rw [List.find?_cons_of_neg (p := fun (q : ℕ × DriverRaceResult) => decide (q.1 = j)) _ hside]
    | cons p rest ih =>
      have hany' : ¬ rest.any (fun p => p.1 = k) = true := by
        intro hcon
        rcases List.any_eq_true.mp hcon with ⟨x, hx, hxk⟩
        exact hany (List.any_eq_true.mpr ⟨x, List.mem_cons_of_mem p hx, hxk⟩)
      simp only [List.cons_append]
      by_cases hpj : p.1 = j
      · have hside : (decide (p.1 = j)) = true := by simpa using hpj
        rw [List.find?_cons_of_pos (p := fun (q : ℕ × DriverRaceResult) => decide (q.1 = j)) _ hside,
          List.find?_cons_of_pos (p := fun (q : ℕ × DriverRaceResult) => decide (q.1 = j)) _ hside]
      · have hside : ¬ (decide (p.1 = j)) = true := by simpa using hpj
        rw [List.find?_cons_of_neg (p := fun (q : ℕ × DriverRaceResult) => decide (q.1 = j)) _ hside,
          List.find?_cons_of_neg (p := fun (q : ℕ × DriverRaceResult) => decide (q.1 = j)) _ hside]
        exact ih hany'

theorem mapGet_eq_some_mem {m : List (ℕ × DriverRaceResult)} {k : ℕ} {v : DriverRaceResult}
    (h : mapGet m k = some v) : (k, v) ∈ m := by
  unfold mapGet at h
  cases hf : m.find? (fun p => p.1 = k) with
  | none => rw [hf] at h; simp at h
  | some p =>
    rw [hf] at h
    simp only [Option.map_some', Option.some.injEq] at h
    have hm := List.mem_of_find?_eq_some hf
    have hk : p.1 = k := by simpa using List.find?_some hf
    obtain ⟨p1, p2⟩ := p
    subst hk
    subst h
    exact hm

theorem mem_mapGet_of_nodup {m : List (ℕ × DriverRaceResult)} {k : ℕ} {v : DriverRaceResult}
    (hnd : (m.map (fun p => p.1)).Nodup) (hmem : (k, v) ∈ m) : mapGet m k = some v := by
  unfold mapGet
  induction m with
  | nil => simp at hmem
  | cons p rest ih =>
    rw [List.map_cons, List.nodup_cons] at hnd
    rcases List.mem_cons.mp hmem with h | h
    · have hside : (decide (p.1 = k)) = true := by rw [← h]; simp
      rw [List.find?_cons_of_pos (p := fun (q : ℕ × DriverRaceResult) => decide (q.1 = k)) _ hside]
      rw [← h]
      rfl
    · have hp : ¬ p.1 = k := by
        intro hcon
        have hk : k ∈ rest.map (fun p => p.1) := List.mem_map_of_mem _ h
        exact hnd.1 (hcon ▸ hk)
      have hside : ¬ (decide (p.1 = k)) = true := by simpa using hp
      rw [List.find?_cons_of_neg (p := fun (q : ℕ × DriverRaceResult) => decide (q.1 = k)) _ hside]
      exact ih hnd.2 h

theorem mapGet_none_not_mem {m : List (ℕ × DriverRaceResult)} {k : ℕ}
    (h : mapGet m k = none) : ∀ v, (k, v) ∉ m := by
  intro v hmem
  unfold mapGet at h
  cases hf : m.find? (fun p => p.1 = k) with
  | none =>
    have := List.find?_eq_none.mp hf (k, v) hmem
    simp at this
  | some p => rw [hf] at h; simp at h

theorem mapSet_same {m : List (ℕ × DriverRaceResult)} {k : ℕ} {v : DriverRaceResult}
    (hnd : (m.map (fun p => p.1)).Nodup) (hmem : (k, v) ∈ m) : mapSet m k v = m := by
  unfold mapSet
  rw [if_pos (List.any_eq_true.mpr ⟨(k, v), hmem, by simp⟩)]
  induction m with
  | nil => rfl
  | cons p rest ih =>
    rw [List.map_cons, List.nodup_cons] at hnd
    rcases List.mem_cons.mp hmem with h | h
    · have hp : p.1 = k := by rw [← h]
      have hrest : ∀ x ∈ rest, ¬ x.1 = k := by
        intro x hx hcon
        exact hnd.1 (hp ▸ hcon ▸ List.mem_map_of_mem (fun p => p.1) hx)
      have hmap : rest.map (fun p => if p.1 = k then (k, v) else p) = rest.map id := by
        apply List.map_congr_left
        intro x hx
        rw [if_neg (hrest x hx)]
        rfl
      rw [List.map_cons, if_pos hp, hmap, List.map_id, h]
    · have hp : ¬ p.1 = k := by
        intro hcon
        have hk : k ∈ rest.map (fun p => p.1) := List.mem_map_of_mem _ h
        exact hnd.1 (hcon ▸ hk)
      rw [List.map_cons, if_neg hp, ih hnd.2 h]

theorem wfMap_mapSet {m : List (ℕ × DriverRaceResult)} (hw : WfMap m)
    {k : ℕ} {v : DriverRaceResult} (hv : v.raceIndex = k) : WfMap (mapSet m k v) := by
  obtain ⟨hnd, hval⟩ := hw
  unfold mapSet
  by_cases hany : m.any (fun p => p.1 = k) = true
  · rw [if_pos hany]
    constructor
    · have hkeys : (m.map (fun p => if p.1 = k then (k, v) else p)).map (fun p => p.1) =
          m.map (fun p => p.1) := by
        rw [List.map_map]
        apply List.map_congr_left
        intro p _
        by_cases hp : p.1 = k
        · simp [hp]
        · simp [hp]
      rw [hkeys]
      exact hnd
    · intro p hp
      rcases List.mem_map.mp hp with ⟨q, hq, hfq⟩
      by_cases hqk : q.1 = k
      · rw [if_pos hqk] at hfq
        rw [← hfq]
        exact hv
      · rw [if_neg hqk] at hfq
        rw [← hfq]
        exact hval q hq
  · rw [if_neg hany]
    constructor
    · rw [List.map_append]
      rw [List.nodup_append]
      refine ⟨hnd, by simp, ?_⟩
      intro a ha hb
      rcases List.mem_map.mp ha with ⟨q, hq, hfq⟩
      simp only [List.map_cons, List.map_nil, List.mem_singleton] at hb
      rw [hb] at hfq
      exact hany (List.any_eq_true.mpr ⟨q, hq, by simpa using hfq⟩)
    · intro p hp
      rcases List.mem_append.mp hp with h | h
      · exact hval p h
      · simp only [List.mem_singleton] at h
        rw [h]
        exact hv

theorem mergeRaceResultsStep_at_ne (races : List StandingRace)
    (m : List (ℕ × DriverRaceResult)) (x : ℕ × Option ℚ) {j : ℕ} (h : j ≠ x.1) :
    mapGet (mergeRaceResultsStep races m x) j = mapGet m j := by
  unfold mergeRaceResultsStep
  cases hg : mapGet m x.1 with
  | some existing => exact mapGet_mapSet_ne m _ h
  | none =>
    cases x.2 with
    | none => rfl
    | some q => exact mapGet_mapSet_ne m _ h

theorem wfMap_mergeRaceResultsStep (races : List StandingRace)
    {m : List (ℕ × DriverRaceResult)} (hw : WfMap m) (x : ℕ × Option ℚ) :
    WfMap (mergeRaceResultsStep races m x) := by
  unfold mergeRaceResultsStep
  cases hg : mapGet m x.1 with
  | some existing =>
    have hidx : existing.raceIndex = x.1 := hw.2 _ (mapGet_eq_some_mem hg)
    exact wfMap_mapSet hw hidx
  | none =>
    cases x.2 with
    | none => exact hw
    | some q => exact wfMap_mapSet hw rfl

theorem fold_step_at_ne (races : List StandingRace) (pairs : List (ℕ × Option ℚ)) :
    ∀ (m0 : List (ℕ × DriverRaceResult)) (j : ℕ), (∀ x ∈ pairs, x.1 ≠ j) →
    mapGet (pairs.foldl (mergeRaceResultsStep races) m0) j = mapGet m0 j := by
  induction pairs with
  | nil => intro m0 j _; rfl
  | cons x rest ih =>
    intro m0 j h
    rw [List.foldl_cons]
    rw [ih _ j (fun y hy => h y (List.mem_cons_of_mem x hy))]
    exact mergeRaceResultsStep_at_ne races m0 x
      (fun hc => h x (List.mem_cons_self x rest) hc.symm)

theorem fold_wf (races : List StandingRace) (pairs : List (ℕ × Option ℚ)) :
    ∀ (m0 : List (ℕ × DriverRaceResult)), WfMap m0 →
    WfMap (pairs.foldl (mergeRaceResultsStep races) m0) := by
  induction pairs with
  | nil => intro m0 hw; exact hw
  | cons x rest ih =>
    intro m0 hw
    rw [List.foldl_cons]
    exact ih _ (wfMap_mergeRaceResultsStep races hw x)

theorem step_self_facts (races : List StandingRace)
    {m0 : List (ℕ × DriverRaceResult)} (hw : WfMap m0) (i : ℕ) (p : Option ℚ) :
    (p ≠ none → mapGet (mergeRaceResultsStep races m0 (i, p)) i ≠ none) ∧
    (∀ v, mapGet (mergeRaceResultsStep races m0 (i, p)) i = some v →
      jsCoalesce v.raceId ((races.get? i).map (fun r => r.id)) = v.raceId ∧
      jsCoalesce v.position p = v.position) := by
  unfold mergeRaceResultsStep
  cases hg : mapGet m0 i with
  | some e =>
    simp only
    rw [mapGet_mapSet_self]
    constructor
    · intro _ hcon
      exact Option.noConfusion hcon
    · intro v hv
      injection hv with hv
      rw [← hv]
      exact ⟨jsCoalesce_absorb _ _, jsCoalesce_absorb _ _⟩
  | none =>
    cases p with
    | none =>
      simp only
      rw [hg]
      exact ⟨fun hc => absurd rfl hc, fun v hv => absurd hv (by simp)⟩
    | some q =>
      simp only
      rw [mapGet_mapSet_self]
      constructor
      · intro _ hcon
        exact Option.noConfusion hcon
      · intro v hv
        injection hv with hv
        rw [← hv]
        exact ⟨jsCoalesce_self _, rfl⟩

theorem fold_saturated (races : List StandingRace) (pairs : List (ℕ × Option ℚ)) :
    ∀ (m0 : List (ℕ × DriverRaceResult)), WfMap m0 →
    (pairs.map (fun x => x.1)).Nodup →
    ∀ x ∈ pairs,
      (x.2 ≠ none → mapGet (pairs.foldl (mergeRaceResultsStep races) m0) x.1 ≠ none) ∧
      (∀ v, mapGet (pairs.foldl (mergeRaceResultsStep races) m0) x.1 = some v →
        jsCoalesce v.raceId ((races.get? x.1).map (fun r => r.id)) = v.raceId ∧
        jsCoalesce v.position x.2 = v.position) := by
  induction pairs with
  | nil => intro m0 _ _ x hx; simp at hx
  | cons y rest ih =>
    intro m0 hw hnd x hx
    rw [List.map_cons, List.nodup_cons] at hnd
    rw [List.foldl_cons]
    rcases List.mem_cons.mp hx with h | h
    · subst h
      have hrest : ∀ z ∈ rest, z.1 ≠ x.1 := by
        intro z hz hcon
        exact hnd.1 (hcon ▸ List.mem_map_of_mem (fun x => x.1) hz)
      rw [fold_step_at_ne races rest _ x.1 hrest]
      obtain ⟨x1, x2⟩ := x
      exact step_self_facts races hw x1 x2
    · exact ih _ (wfMap_mergeRaceResultsStep races hw y) hnd.2 x h

theorem fold_preserves (races : List StandingRace) (pairs : List (ℕ × Option ℚ)) :
    ∀ (m0 : List (ℕ × DriverRaceResult)) (k : ℕ) (v : DriverRaceResult),
    mapGet m0 k = some v →
    ∃ v', mapGet (pairs.foldl (mergeRaceResultsStep races) m0) k = some v' ∧
      v'.points = v.points ∧ v'.raceIndex = v.raceIndex ∧
      (∀ q, v.position = some q → v'.position = some q) := by
  induction pairs with
  | nil =>
    intro m0 k v h
    exact ⟨v, h, rfl, rfl, fun q hq => hq⟩
  | cons x rest ih =>
    intro m0 k v h
    rw [List.foldl_cons]
    obtain ⟨x1, x2⟩ := x
    by_cases hk : k = x1
    · subst hk
      have hstep : ∃ v₁, mapGet (mergeRaceResultsStep races m0 (k, x2)) k = some v₁ ∧
          v₁.points = v.points ∧ v₁.raceIndex = v.raceIndex ∧
          (∀ q, v.position = some q → v₁.position = some q) := by
        unfold mergeRaceResultsStep
        simp only
        rw [h]
        simp only
        rw [mapGet_mapSet_self]
        refine ⟨_, rfl, rfl, rfl, ?_⟩
        intro q hq
        rw [hq]
        rfl
      obtain ⟨v₁, hv₁, hp₁, hr₁, hq₁⟩ := hstep
      obtain ⟨v', hv', hp', hr', hq'⟩ := ih _ k v₁ hv₁
      exact ⟨v', hv', hp'.trans hp₁, hr'.trans hr₁, fun q hq => hq' q (hq₁ q hq)⟩
    · have hstep : mapGet (mergeRaceResultsStep races m0 (x1, x2)) k = some v := by
        rw [mergeRaceResultsStep_at_ne races m0 (x1, x2) hk]
        exact h
      exact ih _ k v hstep

theorem foldl_fixed {α β : Type} (f : β → α → β) (b : β) (l : List α)
    (h : ∀ x ∈ l, f b x = b) : l.foldl f b = b := by
  induction l with
  | nil => rfl
  | cons x rest ih =>
    rw [List.foldl_cons, h x (List.mem_cons_self x rest)]
    exact ih (fun y hy => h y (List.mem_cons_of_mem x hy))

theorem foldl_mapSet_fresh (cur : List DriverRaceResult) :
    ∀ (m0 : List (ℕ × DriverRaceResult)),
    (cur.map (fun r => r.raceIndex)).Nodup →
    (∀ r ∈ cur, m0.any (fun p => p.1 = r.raceIndex) = false) →
    cur.foldl (fun m r => mapSet m r.raceIndex r) m0 =
      m0 ++ cur.map (fun r => (r.raceIndex, r)) := by
  induction cur with
  | nil => intro m0 _ _; simp
  | cons r rest ih =>
    intro m0 hnd hfresh
    rw [List.map_cons, List.nodup_cons] at hnd
    rw [List.foldl_cons]
    have hset : mapSet m0 r.raceIndex r = m0 ++ [(r.raceIndex, r)] := by
      unfold mapSet
      rw [if_neg]
      rw [hfresh r (List.mem_cons_self r rest)]
      simp
    rw [hset]
    have hfresh' : ∀ s ∈ rest, (m0 ++ [(r.raceIndex, r)]).any
        (fun p => p.1 = s.raceIndex) = false := by
      intro s hs
      rw [List.any_append]
      rw [hfresh s (List.mem_cons_of_mem r hs)]
      simp only [Bool.false_or, List.any_cons, List.any_nil, Bool.or_false]
      simp only [decide_eq_false_iff_not]
      intro hcon
      exact hnd.1 (hcon ▸ List.mem_map_of_mem (fun r => r.raceIndex) hs)
    rw [ih _ hnd.2 hfresh']
    simp

theorem contains_eq_false_iff (l : List ℕ) (a : ℕ) : l.contains a = false ↔ a ∉ l := by
  simp

theorem wfMap_raceResultsByIndex (cur : List DriverRaceResult) :
    WfMap (raceResultsByIndex cur) := by
  unfold raceResultsByIndex
  have hgen : ∀ (l : List DriverRaceResult) (m0 : List (ℕ × DriverRaceResult)), WfMap m0 →
      WfMap (l.foldl (fun m r => mapSet m r.raceIndex r) m0) := by
    intro l
    induction l with
    | nil => intro m0 hw; exact hw
    | cons r rest ih =>
      intro m0 hw
      rw [List.foldl_cons]
      exact ih _ (wfMap_mapSet hw rfl)
  exact hgen cur [] ⟨by simp, by simp⟩

theorem mapGet_congr_of_perm {m m' : List (ℕ × DriverRaceResult)}
    (hnd : (m.map (fun p => p.1)).Nodup) (hnd' : (m'.map (fun p => p.1)).Nodup)
    (hp : m.Perm m') (k : ℕ) : mapGet m k = mapGet m' k := by
  cases hg : mapGet m k with
  | some v => exact (mem_mapGet_of_nodup hnd' (hp.mem_iff.mp (mapGet_eq_some_mem hg))).symm
  | none =>
    cases hg' : mapGet m' k with
    | none => rfl
    | some v =>
      exact absurd (hp.mem_iff.mpr (mapGet_eq_some_mem hg')) (mapGet_none_not_mem hg v)

theorem map_pair_self {m : List (ℕ × DriverRaceResult)} (hw : WfMap m) :
    m.map (fun p => (p.2.raceIndex, p.2)) = m := by
  have h : m.map (fun p => (p.2.raceIndex, p.2)) = m.map id :=
    List.map_congr_left (fun p hp => by rw [hw.2 p hp]; rfl)
  rw [h, List.map_id]

theorem raceResultsByIndex_eq {cur : List DriverRaceResult}
    (hnd : (cur.map (fun r => r.raceIndex)).Nodup) :
    raceResultsByIndex cur = cur.map (fun r => (r.raceIndex, r)) := by
  unfold raceResultsByIndex
  have h := foldl_mapSet_fresh cur [] hnd (fun r _ => rfl)
  simpa using h

theorem mergeRaceResults_def (cur : List DriverRaceResult)
    (pos : List (Option ℚ)) (races : List StandingRace) :
    mergeRaceResults cur pos races =
      List.insertionSort (fun a b => a.raceIndex ≤ b.raceIndex)
        ((pos.enum.foldl (mergeRaceResultsStep races) (raceResultsByIndex cur)).map
          (fun p => p.2)) := rfl

theorem mergeRaceResults_nodup (cur : List DriverRaceResult)
    (pos : List (Option ℚ)) (races : List StandingRace) :
    ((mergeRaceResults cur pos races).map (fun r => r.raceIndex)).Nodup := by
  rw [mergeRaceResults_def]
  have hw : WfMap (pos.enum.foldl (mergeRaceResultsStep races) (raceResultsByIndex cur)) :=
    fold_wf races pos.enum _ (wfMap_raceResultsByIndex cur)
  have hperm := (List.perm_insertionSort (fun a b => a.raceIndex ≤ b.raceIndex)
    ((pos.enum.foldl (mergeRaceResultsStep races) (raceResultsByIndex cur)).map
      (fun p => p.2))).map (fun r => r.raceIndex)
  rw [List.map_map] at hperm
  have heq : (pos.enum.foldl (mergeRaceResultsStep races) (raceResultsByIndex cur)).map
      ((fun r => r.raceIndex) ∘ (fun p => p.2)) =
      (pos.enum.foldl (mergeRaceResultsStep races) (raceResultsByIndex cur)).map
      (fun p => p.1) :=
    List.map_congr_left (fun p hp => hw.2 p hp)
  rw [heq] at hperm
  exact hperm.nodup_iff.mpr hw.1

theorem mergeRaceResults_preserves {cur : List DriverRaceResult}
    (hnd : (cur.map (fun r => r.raceIndex)).Nodup)
    (pos : List (Option ℚ)) (races : List StandingRace) :
    ∀ r ∈ cur, ∃ r' ∈ mergeRaceResults cur pos races,
      r'.raceIndex = r.raceIndex ∧ r'.points = r.points ∧
      ∀ q, r.position = some q → r'.position = some q := by
  intro r hr
  have hkeys : ((cur.map (fun r => (r.raceIndex, r))).map (fun p => p.1)).Nodup := by
    rw [List.map_map]
    exact hnd
  have hm0 : mapGet (raceResultsByIndex cur) r.raceIndex = some r := by
    rw [raceResultsByIndex_eq hnd]
    exact mem_mapGet_of_nodup hkeys
      (List.mem_map_of_mem (fun r => (r.raceIndex, r)) hr)
  obtain ⟨v', hv', hpts, hri, hq⟩ := fold_preserves races pos.enum _ r.raceIndex r hm0
  have hmem : v' ∈ (pos.enum.foldl (mergeRaceResultsStep races)
      (raceResultsByIndex cur)).map (fun p => p.2) :=
    List.mem_map_of_mem (fun p => p.2) (mapGet_eq_some_mem hv')
  have hout : v' ∈ mergeRaceResults cur pos races := by
    rw [mergeRaceResults_def]
    exact (List.perm_insertionSort _ _).mem_iff.mpr hmem
  exact ⟨v', hout, hri, hpts, hq⟩

theorem mergeRaceResults_idem (cur : List DriverRaceResult)
    (pos : List (Option ℚ)) (races : List StandingRace) :
    mergeRaceResults (mergeRaceResults cur pos races) pos races =
      mergeRaceResults cur pos races := by
  set r1 := mergeRaceResults cur pos races with hr1
  have hwf : WfMap (pos.enum.foldl (mergeRaceResultsStep races) (raceResultsByIndex cur)) :=
    fold_wf races pos.enum _ (wfMap_raceResultsByIndex cur)
  have hnd1 : (r1.map (fun r => r.raceIndex)).Nodup := by
    rw [hr1]
    exact mergeRaceResults_nodup cur pos races
  have hkeys1 : ((r1.map (fun r => (r.raceIndex, r))).map (fun p => p.1)).Nodup := by
    rw [List.map_map]
    exact hnd1
  have hperm : (r1.map (fun r => (r.raceIndex, r))).Perm
      (pos.enum.foldl (mergeRaceResultsStep races) (raceResultsByIndex cur)) := by
    have h1 : r1.Perm ((pos.enum.foldl (mergeRaceResultsStep races)
        (raceResultsByIndex cur)).map (fun p => p.2)) := by
      rw [hr1, mergeRaceResults_def]
      exact List.perm_insertionSort _ _
    have h2 := h1.map (fun r => (r.raceIndex, r))
    rw [List.map_map] at h2
    have h3 : (pos.enum.foldl (mergeRaceResultsStep races) (raceResultsByIndex cur)).map
        ((fun r => (r.raceIndex, r)) ∘ (fun p => p.2)) =
        pos.enum.foldl (mergeRaceResultsStep races) (raceResultsByIndex cur) :=
      map_pair_self hwf
    rw [h3] at h2
    exact h2
  have hget : ∀ k, mapGet (r1.map (fun r => (r.raceIndex, r))) k =
      mapGet (pos.enum.foldl (mergeRaceResultsStep races) (raceResultsByIndex cur)) k :=
    fun k => mapGet_congr_of_perm hkeys1 hwf.1 hperm k
  have hfix : ∀ x ∈ pos.enum,
      mergeRaceResultsStep races (r1.map (fun r => (r.raceIndex, r))) x =
        r1.map (fun r => (r.raceIndex, r)) := by
    intro x hx
    obtain ⟨i, p⟩ := x
    have hsat := fold_saturated races pos.enum (raceResultsByIndex cur)
      (wfMap_raceResultsByIndex cur) (List.nodup_enum_map_fst pos) (i, p) hx
    dsimp only at hsat
    show mergeRaceResultsStep races (r1.map (fun r => (r.raceIndex, r))) (i, p) =
      r1.map (fun r => (r.raceIndex, r))
    unfold mergeRaceResultsStep
    dsimp only
    cases hg : mapGet (r1.map (fun r => (r.raceIndex, r))) i with
    | none =>
      have hgf : mapGet (pos.enum.foldl (mergeRaceResultsStep races)
          (raceResultsByIndex cur)) i = none := by
        rw [← hget i]
        exact hg
      cases p with
      | none => rfl
      | some q => exact absurd hgf (hsat.1 (by simp))
    | some e =>
      have hgf : mapGet (pos.enum.foldl (mergeRaceResultsStep races)
          (raceResultsByIndex cur)) i = some e := by
        rw [← hget i]
        exact hg
      have hfacts := hsat.2 e hgf
      dsimp only
      rw [hfacts.1, hfacts.2]
      exact mapSet_same hkeys1 (mapGet_eq_some_mem hg)
  conv_lhs => rw [mergeRaceResults_def, raceResultsByIndex_eq hnd1]
  rw [foldl_fixed _ _ _ hfix, List.map_map]
  have hid : r1.map ((fun p => p.2) ∘ (fun r => (r.raceIndex, r))) = r1 := List.map_id r1
  rw [hid]
  haveI htot : IsTotal DriverRaceResult (fun a b => a.raceIndex ≤ b.raceIndex) :=
    ⟨fun a b => Nat.le_total _ _⟩
  haveI htr : IsTrans DriverRaceResult (fun a b => a.raceIndex ≤ b.raceIndex) :=
    ⟨fun a b c => Nat.le_trans⟩
  have hsorted : List.Sorted (fun a b => a.raceIndex ≤ b.raceIndex) r1 := by
    rw [hr1, mergeRaceResults_def]
    exact List.sorted_insertionSort _ _
  exact hsorted.insertionSort_eq

theorem mergeRaces_def (cur : List StandingRace) (cols : List HtmlRaceColumn) :
    mergeRaces cur cols =
      if cols.length ≤ cur.length then cur else cols.enum.foldl mergeRacesF cur := rfl

theorem mergeRacesF_length (cols : List HtmlRaceColumn) :
    ∀ (i0 : ℕ) (m : List StandingRace), i0 ≤ m.length →
    i0 + cols.length ≤ ((List.enumFrom i0 cols).foldl mergeRacesF m).length := by
  induction cols with
  | nil => intro i0 m h; simpa using h
  | cons c rest ih =>
    intro i0 m h
    rw [List.enumFrom_cons, List.foldl_cons]
    have hstep : i0 + 1 ≤ (mergeRacesF m (i0, c)).length := by
      unfold mergeRacesF
      by_cases hlt : (i0, c).1 < m.length
      · rw [if_pos hlt]
        exact hlt
      · rw [if_neg hlt]
        rw [List.length_append]
        simp only [List.length_cons, List.length_nil]
        omega
    have := ih (i0 + 1) _ hstep
    simp only [List.length_cons]
    omega

theorem mergeRaces_length (cur : List StandingRace) (cols : List HtmlRaceColumn) :
    cols.length ≤ (mergeRaces cur cols).length := by
  rw [mergeRaces_def]
  by_cases h : cols.length ≤ cur.length
  · rw [if_pos h]
    exact h
  · rw [if_neg h]
    have := mergeRacesF_length cols 0 cur (Nat.zero_le _)
    simpa using this

theorem mergeRaces_twice (cur : List StandingRace) (cols : List HtmlRaceColumn) :
    mergeRaces (mergeRaces cur cols) cols = mergeRaces cur cols := by
  have h := mergeRaces_length cur cols
  rw [mergeRaces_def (mergeRaces cur cols) cols, if_pos h]

/-! ## findHtmlRowIndex lemmas -/

theorem findRowIdxFrom_some_pred (p : ℕ → HtmlStandingRow → Bool) :
    ∀ (rows : List HtmlStandingRow) (i0 i : ℕ), findRowIdxFrom p rows i0 = some i →
    ∃ row, p i row = true := by
  intro rows
  induction rows with
  | nil => intro i0 i h; exact absurd h (by simp [findRowIdxFrom])
  | cons row rest ih =>
    intro i0 i h
    unfold findRowIdxFrom at h
    by_cases hp : p i0 row = true
    · rw [if_pos hp] at h
      injection h with h
      exact ⟨row, h ▸ hp⟩
    · rw [if_neg hp] at h
      exact ih (i0 + 1) i h

theorem findRowIdxFrom_eq_some_iff (p : ℕ → HtmlStandingRow → Bool) :
    ∀ (rows : List HtmlStandingRow) (i0 i : ℕ),
    findRowIdxFrom p rows i0 = some i ↔
      ∃ k, i = i0 + k ∧ (∃ row, rows.get? k = some row ∧ p (i0 + k) row = true) ∧
        ∀ j < k, ∀ rj, rows.get? j = some rj → p (i0 + j) rj = false := by
  intro rows
  induction rows with
  | nil =>
    intro i0 i
    constructor
    · intro h
      exact absurd h (by simp [findRowIdxFrom])
    · rintro ⟨k, _, ⟨row, hrow, _⟩, _⟩
      simp at hrow
  | cons row rest ih =>
    intro i0 i
    unfold findRowIdxFrom
    by_cases hp : p i0 row = true
    · rw [if_pos hp]
      constructor
      · intro h
        injection h with h
        refine ⟨0, by omega, ⟨row, rfl, by rw [Nat.add_zero]; exact hp⟩, ?_⟩
        intro j hj
        exact absurd hj (Nat.not_lt_zero j)
      · rintro ⟨k, hik, ⟨r', hr', hpr⟩, hmin⟩
        cases k with
        | zero => rw [hik, Nat.add_zero]
        | succ k' =>
          have hbad := hmin 0 (Nat.succ_pos k') row rfl
          rw [Nat.add_zero] at hbad
          rw [hp] at hbad
          exact absurd hbad (by simp)
    · rw [if_neg hp]
      have hp' : p i0 row = false := by
        cases hb : p i0 row
        · rfl
        · exact absurd hb hp
      rw [ih (i0 + 1) i]
      constructor
      · rintro ⟨k, hik, ⟨r', hr', hpr⟩, hmin⟩
        refine ⟨k + 1, by omega, ⟨r', by simpa using hr', ?_⟩, ?_⟩
        · have heq : i0 + (k + 1) = i0 + 1 + k := by omega
          rw [heq]
          exact hpr
        · intro j hj rj hrj
          cases j with
          | zero =>
            have : rj = row := by
              simp only [List.get?] at hrj
              injection hrj with hrj
              exact hrj.symm
            rw [this, Nat.add_zero]
            exact hp'
          | succ j' =>
            have := hmin j' (by omega) rj (by simpa using hrj)
            have heq : i0 + (j' + 1) = i0 + 1 + j' := by omega
            rw [heq]
            exact this
      · rintro ⟨k, hik, ⟨r', hr', hpr⟩, hmin⟩
        cases k with
        | zero =>
          have : r' = row := by
            simp only [List.get?] at hr'
            injection hr' with hr'
            exact hr'.symm
          rw [this, Nat.add_zero] at hpr
          exact absurd hpr hp
        | succ k' =>
          refine ⟨k', by omega, ⟨r', by simpa using hr', ?_⟩, ?_⟩
          · have heq : i0 + 1 + k' = i0 + (k' + 1) := by omega
            rw [heq]
            exact hpr
          · intro j hj rj hrj
            have := hmin (j + 1) (by omega) rj (by simpa using hrj)
            have heq : i0 + 1 + j = i0 + (j + 1) := by omega
            rw [heq]
            exact this

theorem findRowIdxFrom_eq_none_iff (p : ℕ → HtmlStandingRow → Bool) :
    ∀ (rows : List HtmlStandingRow) (i0 : ℕ),
    findRowIdxFrom p rows i0 = none ↔
      ∀ k rk, rows.get? k = some rk → p (i0 + k) rk = false := by
  intro rows
  induction rows with
  | nil =>
    intro i0
    constructor
    · intro _ k rk hrk
      simp at hrk
    · intro _
      rfl
  | cons row rest ih =>
    intro i0
    unfold findRowIdxFrom
    by_cases hp : p i0 row = true
    · rw [if_pos hp]
      constructor
      · intro h
        exact absurd h (by simp)
      · intro h
        have hbad := h 0 row rfl
        rw [Nat.add_zero, hp] at hbad
        exact absurd hbad (by simp)
    · rw [if_neg hp]
      have hp' : p i0 row = false := by
        cases hb : p i0 row
        · rfl
        · exact absurd hb hp
      rw [ih (i0 + 1)]
      constructor
      · intro h k rk hrk
        cases k with
        | zero =>
          have : rk = row := by
            simp only [List.get?] at hrk
            injection hrk with hrk
            exact hrk.symm
          rw [this, Nat.add_zero]
          exact hp'
        | succ k' =>
          have := h k' rk (by simpa using hrk)
          have heq : i0 + (k' + 1) = i0 + 1 + k' := by omega
          rw [heq]
          exact this
      · intro h k rk hrk
        have := h (k + 1) rk (by simpa using hrk)
        have heq : i0 + 1 + k = i0 + (k + 1) := by omega
        rw [heq]
        exact this

theorem findHtmlRowIndex_unused {entry : StandingEntry} {idx : ℕ}
    {rows : List HtmlStandingRow} {used : List ℕ} {r : ℕ}
    (h : findHtmlRowIndex entry idx rows used = some r) : used.contains r = false := by
  unfold findHtmlRowIndex at h
  cases hname : findRowIdxFrom (fun i row =>
      !used.contains i && decide (row.normalizedName = normalizeName entry.displayName)) rows 0 with
  | some i =>
    rw [hname] at h
    injection h with h
    subst h
    obtain ⟨row, hrow⟩ := findRowIdxFrom_some_pred _ rows 0 i hname
    simp only [Bool.and_eq_true] at hrow
    simpa using hrow.1
  | none =>
    rw [hname] at h
    dsimp only at h
    cases hpos : entry.position with
    | none =>
      rw [hpos] at h
      by_cases hc : idx < rows.length ∧ ¬ used.contains idx
      · rw [if_pos hc] at h
        injection h with h
        subst h
        simpa using hc.2
      · rw [if_neg hc] at h
        cases h
    | some pv =>
      rw [hpos] at h
      dsimp only at h
      cases hposf : findRowIdxFrom (fun i row =>
          !used.contains i && decide (row.position = some pv)) rows 0 with
      | some i =>
        rw [hposf] at h
        injection h with h
        subst h
        obtain ⟨row, hrow⟩ := findRowIdxFrom_some_pred _ rows 0 i hposf
        simp only [Bool.and_eq_true] at hrow
        simpa using hrow.1
      | none =>
        rw [hposf] at h
        by_cases hc : idx < rows.length ∧ ¬ used.contains idx
        · rw [if_pos hc] at h
          injection h with h
          subst h
          simpa using hc.2
        · rw [if_neg hc] at h
          cases h

theorem findRowIdxFrom_zero_some_iff (p : ℕ → HtmlStandingRow → Bool)
    (rows : List HtmlStandingRow) (i : ℕ) :
    findRowIdxFrom p rows 0 = some i ↔
      (∃ row, rows.get? i = some row ∧ p i row = true) ∧
      ∀ j < i, ∀ rj, rows.get? j = some rj → p j rj = false := by
  rw [findRowIdxFrom_eq_some_iff]
  constructor
  · rintro ⟨k, hik, hhit, hmin⟩
    have hk : k = i := by omega
    subst hk
    refine ⟨by simpa using hhit, ?_⟩
    intro j hj rj hrj
    simpa using hmin j hj rj hrj
  · rintro ⟨hhit, hmin⟩
    exact ⟨i, by omega, by simpa using hhit,
      fun j hj rj hrj => by simpa using hmin j hj rj hrj⟩

theorem findRowIdxFrom_zero_none_iff (p : ℕ → HtmlStandingRow → Bool)
    (rows : List HtmlStandingRow) :
    findRowIdxFrom p rows 0 = none ↔
      ∀ k rk, rows.get? k = some rk → p k rk = false := by
  rw [findRowIdxFrom_eq_none_iff]
  constructor <;> intro h k rk hrk <;> simpa using h k rk hrk

theorem nameHit_bool_iff (entry : StandingEntry) (rows : List HtmlStandingRow)
    (used : List ℕ) (i : ℕ) :
    (∃ row, rows.get? i = some row ∧
      (!used.contains i && decide (row.normalizedName = normalizeName entry.displayName)) = true)
    ↔ nameMatchAt entry rows used i := by
  unfold nameMatchAt
  constructor
  · rintro ⟨row, hrow, hb⟩
    simp only [Bool.and_eq_true, decide_eq_true_eq] at hb
    refine ⟨by simpa using hb.1, row, hrow, hb.2⟩
  · rintro ⟨hnm, row, hrow, heq⟩
    exact ⟨row, hrow, by simp [hnm, heq]⟩

theorem nameMiss_bool_iff (entry : StandingEntry) (rows : List HtmlStandingRow)
    (used : List ℕ) (j : ℕ) :
    (∀ rj, rows.get? j = some rj →
      (!used.contains j && decide (rj.normalizedName = normalizeName entry.displayName)) = false)
    ↔ ¬ nameMatchAt entry rows used j := by
  rw [← nameHit_bool_iff]
  constructor
  · rintro h ⟨row, hrow, hb⟩
    rw [h row hrow] at hb
    cases hb
  · intro h rj hrj
    cases hb : (!used.contains j && decide (rj.normalizedName = normalizeName entry.displayName)) with
    | false => rfl
    | true => exact absurd ⟨rj, hrj, hb⟩ h

theorem posHit_bool_iff (entry : StandingEntry) (rows : List HtmlStandingRow)
    (used : List ℕ) (i : ℕ) {pv : ℚ} (hpv : entry.position = some pv) :
    (∃ row, rows.get? i = some row ∧
      (!used.contains i && decide (row.position = some pv)) = true)
    ↔ posMatchAt entry rows used i := by
  unfold posMatchAt
  rw [hpv]
  constructor
  · rintro ⟨row, hrow, hb⟩
    simp only [Bool.and_eq_true, decide_eq_true_eq] at hb
    refine ⟨by simpa using hb.1, row, hrow, hb.2⟩
  · rintro ⟨hnm, row, hrow, heq⟩
    exact ⟨row, hrow, by simp [hnm, heq]⟩

theorem posMiss_bool_iff (entry : StandingEntry) (rows : List HtmlStandingRow)
    (used : List ℕ) (j : ℕ) {pv : ℚ} (hpv : entry.position = some pv) :
    (∀ rj, rows.get? j = some rj →
      (!used.contains j && decide (rj.position = some pv)) = false)
    ↔ ¬ posMatchAt entry rows used j := by
  rw [← posHit_bool_iff entry rows used j hpv]
  constructor
  · rintro h ⟨row, hrow, hb⟩
    rw [h row hrow] at hb
    cases hb
  · intro h rj hrj
    cases hb : (!used.contains j && decide (rj.position = some pv)) with
    | false => rfl
    | true => exact absurd ⟨rj, hrj, hb⟩ h

theorem findHtmlRowIndex_iff (entry : StandingEntry) (entryIndex : ℕ)
    (rows : List HtmlStandingRow) (used : List ℕ) (i : ℕ) :
    findHtmlRowIndex entry entryIndex rows used = some i ↔
      specRowMatch entry entryIndex rows used i := by
  unfold findHtmlRowIndex specRowMatch
  cases hname : findRowIdxFrom (fun i row =>
      !used.contains i && decide (row.normalizedName = normalizeName entry.displayName)) rows 0 with
  | some i₀ =>
    obtain ⟨hhit₀, hmin₀⟩ := (findRowIdxFrom_zero_some_iff _ rows i₀).mp hname
    have hhit : nameMatchAt entry rows used i₀ := (nameHit_bool_iff entry rows used i₀).mp hhit₀
    have hminP : ∀ j < i₀, ¬ nameMatchAt entry rows used j := fun j hj =>
      (nameMiss_bool_iff entry rows used j).mp (fun rj hrj => hmin₀ j hj rj hrj)
    constructor
    · intro h
      injection h with h
      subst h
      exact Or.inl ⟨hhit, hminP⟩
    · intro hspec
      rcases hspec with ⟨hhit', hmin'⟩ | ⟨hno, _⟩ | ⟨hno, _⟩
      · have h1 : ¬ i < i₀ := fun hlt => hminP i hlt hhit'
        have h2 : ¬ i₀ < i := fun hlt => hmin' i₀ hlt hhit
        have heq : i₀ = i := by omega
        rw [heq]
      · exact absurd hhit (hno i₀)
      · exact absurd hhit (hno i₀)
  | none =>
    have hnoName : ∀ j, ¬ nameMatchAt entry rows used j := by
      intro j
      exact (nameMiss_bool_iff entry rows used j).mp
        (fun rj hrj => (findRowIdxFrom_zero_none_iff _ rows).mp hname j rj hrj)
    dsimp only
    cases hpos : entry.position with
    | none =>
      dsimp only
      constructor
      · intro h
        by_cases hc : entryIndex < rows.length ∧ ¬ used.contains entryIndex
        · rw [if_pos hc] at h
          injection h with h
          exact Or.inr (Or.inr ⟨hnoName, Or.inl rfl, h.symm, hc.1, by simpa using hc.2⟩)
        · rw [if_neg hc] at h
          cases h
      · intro hspec
        rcases hspec with ⟨hhit', _⟩ | ⟨_, hne, _, _⟩ | ⟨_, _, hi, hlen, hnu⟩
        · exact absurd hhit' (hnoName i)
        · exact absurd rfl hne
        · rw [if_pos ⟨hlen, by simpa using hnu⟩, hi]
    | some pv =>
      dsimp only
      cases hposf : findRowIdxFrom (fun i row =>
          !used.contains i && decide (row.position = some pv)) rows 0 with
      | some i₁ =>
        dsimp only
        obtain ⟨hhit₁, hmin₁⟩ := (findRowIdxFrom_zero_some_iff _ rows i₁).mp hposf
        have hhitP : posMatchAt entry rows used i₁ :=
          (posHit_bool_iff entry rows used i₁ hpos).mp hhit₁
        have hminP : ∀ j < i₁, ¬ posMatchAt entry rows used j := fun j hj =>
          (posMiss_bool_iff entry rows used j hpos).mp (fun rj hrj => hmin₁ j hj rj hrj)
        constructor
        · intro h
          injection h with h
          subst h
          exact Or.inr (Or.inl ⟨hnoName, Option.some_ne_none pv, hhitP, hminP⟩)
        · intro hspec
          rcases hspec with ⟨hhit', _⟩ | ⟨_, _, hhit', hmin'⟩ | ⟨_, hnp, _, _, _⟩
          · exact absurd hhit' (hnoName i)
          · have h1 : ¬ i < i₁ := fun hlt => hminP i hlt hhit'
            have h2 : ¬ i₁ < i := fun hlt => hmin' i₁ hlt hhitP
            have heq : i₁ = i := by omega
            rw [heq]
          · rcases hnp with hnp | hnp
            · cases hnp
            · exact absurd hhitP (hnp i₁)
      | none =>
        dsimp only
        have hnoPos : ∀ j, ¬ posMatchAt entry rows used j := by
          intro j
          exact (posMiss_bool_iff entry rows used j hpos).mp
            (fun rj hrj => (findRowIdxFrom_zero_none_iff _ rows).mp hposf j rj hrj)
        constructor
        · intro h
          by_cases hc : entryIndex < rows.length ∧ ¬ used.contains entryIndex
          · rw [if_pos hc] at h
            injection h with h
            exact Or.inr (Or.inr ⟨hnoName, Or.inr hnoPos, h.symm, hc.1, by simpa using hc.2⟩)
          · rw [if_neg hc] at h
            cases h
        · intro hspec
          rcases hspec with ⟨hhit', _⟩ | ⟨_, _, hhit', _⟩ | ⟨_, _, hi, hlen, hnu⟩
          · exact absurd hhit' (hnoName i)
          · exact absurd hhit' (hnoPos i)
          · rw [if_pos ⟨hlen, by simpa using hnu⟩, hi]

theorem findHtmlRowIndex_congr {e' e : StandingEntry} (hdn : e'.displayName = e.displayName)
    (hp : e'.position = e.position) (idx : ℕ) (rows : List HtmlStandingRow) (used : List ℕ) :
    findHtmlRowIndex e' idx rows used = findHtmlRowIndex e idx rows used := by
  unfold findHtmlRowIndex
  rw [hdn, hp]

/-! ## mergeEntriesGo lemmas -/

theorem mergeEntriesGo_cons_none {rows : List HtmlStandingRow} {races : List StandingRace}
    {e : StandingEntry} {rest : List StandingEntry} {idx : ℕ} {used : List ℕ}
    (hf : findHtmlRowIndex e idx rows used = none) :
    mergeEntriesGo rows races (e :: rest) idx used =
      (e :: (mergeEntriesGo rows races rest (idx + 1) used).1,
       none :: (mergeEntriesGo rows races rest (idx + 1) used).2) := by
  conv_lhs => rw [mergeEntriesGo, hf]

theorem mergeEntriesGo_cons_some {rows : List HtmlStandingRow} {races : List StandingRace}
    {e : StandingEntry} {rest : List StandingEntry} {idx : ℕ} {used : List ℕ} {ri : ℕ}
    (hf : findHtmlRowIndex e idx rows used = some ri) :
    mergeEntriesGo rows races (e :: rest) idx used =
      ({ e with raceResults := mergeRaceResults e.raceResults (rowAt rows ri).racePositions races }
         :: (mergeEntriesGo rows races rest (idx + 1) (used ++ [ri])).1,
       some ri :: (mergeEntriesGo rows races rest (idx + 1) (used ++ [ri])).2) := by
  conv_lhs => rw [mergeEntriesGo, hf]
  rfl

theorem mergeEntriesGo_asg_facts (rows : List HtmlStandingRow) (races : List StandingRace) :
    ∀ (entries : List StandingEntry) (idx : ℕ) (used : List ℕ),
    ((mergeEntriesGo rows races entries idx used).2.filterMap id).Nodup ∧
    ∀ r ∈ (mergeEntriesGo rows races entries idx used).2.filterMap id, r ∉ used := by
  intro entries
  induction entries with
  | nil =>
    intro idx used
    exact ⟨by simp [mergeEntriesGo], by simp [mergeEntriesGo]⟩
  | cons e rest ih =>
    intro idx used
    cases hf : findHtmlRowIndex e idx rows used with
    | none =>
      rw [mergeEntriesGo_cons_none hf]
      simp only [List.filterMap_cons, id]
      exact ih (idx + 1) used
    | some ri =>
      rw [mergeEntriesGo_cons_some hf]
      simp only [List.filterMap_cons, id]
      have hih := ih (idx + 1) (used ++ [ri])
      have hnotused : ∀ r ∈ (mergeEntriesGo rows races rest (idx + 1)
          (used ++ [ri])).2.filterMap id, r ∉ used ∧ r ≠ ri := by
        intro r hr
        have := hih.2 r hr
        rw [List.mem_append] at this
        push_neg at this
        refine ⟨this.1, ?_⟩
        intro hcon
        exact this.2 (by rw [hcon]; exact List.mem_singleton.mpr rfl)
      constructor
      · rw [List.nodup_cons]
        refine ⟨?_, hih.1⟩
        intro hmem
        exact (hnotused ri hmem).2 rfl
      · intro r hr
        rcases List.mem_cons.mp hr with h | h
        · subst h
          exact (contains_eq_false_iff used r).mp (findHtmlRowIndex_unused hf)
        · exact (hnotused r h).1

theorem mergeEntriesGo_unmatched (rows : List HtmlStandingRow) (races : List StandingRace) :
    ∀ (entries : List StandingEntry) (idx : ℕ) (used : List ℕ) (k : ℕ),
    (mergeEntriesGo rows races entries idx used).2.get? k = some none →
    (mergeEntriesGo rows races entries idx used).1.get? k = entries.get? k := by
  intro entries
  induction entries with
  | nil => intro idx used k h; rfl
  | cons e rest ih =>
    intro idx used k h
    cases hf : findHtmlRowIndex e idx rows used with
    | none =>
      rw [mergeEntriesGo_cons_none hf] at h ⊢
      cases k with
      | zero => rfl
      | succ k' => exact ih (idx + 1) used k' (by simpa using h)
    | some ri =>
      rw [mergeEntriesGo_cons_some hf] at h ⊢
      cases k with
      | zero =>
        simp only [List.get?] at h
        injection h with h
        cases h
      | succ k' => exact ih (idx + 1) (used ++ [ri]) k' (by simpa using h)

theorem forall₂_mem_right {α β : Type} {r : α → β → Prop} :
    ∀ {l₁ : List α} {l₂ : List β}, List.Forall₂ r l₁ l₂ → ∀ b ∈ l₂, ∃ a ∈ l₁, r a b := by
  intro l₁ l₂ h
  induction h with
  | nil => intro b hb; simp at hb
  | cons hr _ ih =>
    intro b hb
    rcases List.mem_cons.mp hb with h | h
    · exact ⟨_, List.mem_cons_self _ _, h ▸ hr⟩
    · obtain ⟨a, ha, hab⟩ := ih b h
      exact ⟨a, List.mem_cons_of_mem _ ha, hab⟩

theorem forall₂_imp_of_mem {α β : Type} {r s : α → β → Prop} :
    ∀ {l₁ : List α} {l₂ : List β}, (∀ a ∈ l₁, ∀ b, r a b → s a b) →
    List.Forall₂ r l₁ l₂ → List.Forall₂ s l₁ l₂ := by
  intro l₁ l₂ himp h
  induction h with
  | nil => exact List.Forall₂.nil
  | cons hr hrest ih =>
    refine List.Forall₂.cons (himp _ (List.mem_cons_self _ _) _ hr) ?_
    exact ih (fun a ha b hab => himp a (List.mem_cons_of_mem _ ha) b hab)

theorem mergeEntriesGo_frame (rows : List HtmlStandingRow) (races : List StandingRace) :
    ∀ (entries : List StandingEntry) (idx : ℕ) (used : List ℕ),
    List.Forall₂ (fun e e' =>
      e'.id = e.id ∧ e'.position = e.position ∧ e'.displayName = e.displayName ∧
      e'.countryCode = e.countryCode ∧ e'.car = e.car ∧ e'.points = e.points ∧
      e'.penalties = e.penalties ∧ e'.score = e.score ∧
      (e'.raceResults = e.raceResults ∨
        ∃ pos, e'.raceResults = mergeRaceResults e.raceResults pos races))
      entries (mergeEntriesGo rows races entries idx used).1 := by
  intro entries
  induction entries with
  | nil => intro idx used; exact List.Forall₂.nil
  | cons e rest ih =>
    intro idx used
    cases hf : findHtmlRowIndex e idx rows used with
    | none =>
      rw [mergeEntriesGo_cons_none hf]
      exact List.Forall₂.cons
        ⟨rfl, rfl, rfl, rfl, rfl, rfl, rfl, rfl, Or.inl rfl⟩ (ih (idx + 1) used)
    | some ri =>
      rw [mergeEntriesGo_cons_some hf]
      refine List.Forall₂.cons ?_ (ih (idx + 1) (used ++ [ri]))
      exact ⟨rfl, rfl, rfl, rfl, rfl, rfl, rfl, rfl,
        Or.inr ⟨(rowAt rows ri).racePositions, rfl⟩⟩

theorem mergeEntriesGo_idem (rows : List HtmlStandingRow) (races : List StandingRace) :
    ∀ (entries : List StandingEntry) (idx : ℕ) (used : List ℕ),
    (mergeEntriesGo rows races ((mergeEntriesGo rows races entries idx used).1) idx used).1 =
      (mergeEntriesGo rows races entries idx used).1 := by
  intro entries
  induction entries with
  | nil => intro idx used; rfl
  | cons e rest ih =>
    intro idx used
    cases hf : findHtmlRowIndex e idx rows used with
    | none =>
      rw [mergeEntriesGo_cons_none hf]
      dsimp only
      rw [mergeEntriesGo_cons_none hf]
      dsimp only
      rw [ih (idx + 1) used]
    | some ri =>
      rw [mergeEntriesGo_cons_some hf]
      dsimp only
      have hf' : findHtmlRowIndex
          { e with raceResults :=
              mergeRaceResults e.raceResults (rowAt rows ri).racePositions races }
          idx rows used = some ri := by
        rw [findHtmlRowIndex_congr rfl rfl]
        exact hf
      rw [mergeEntriesGo_cons_some hf']
      dsimp only
      rw [mergeRaceResults_idem, ih (idx + 1) (used ++ [ri])]

/-! ## Snapshot-level merge lemmas -/

theorem mergeHtmlSnapshot_idem (data : ChampionshipStandingsData)
    (snap : HtmlStandingsSnapshot) :
    mergeHtmlSnapshot (mergeHtmlSnapshot data snap) snap = mergeHtmlSnapshot data snap := by
  unfold mergeHtmlSnapshot
  by_cases hg : snap.raceColumns.length = 0 ∨ snap.rows.length = 0
  · simp only [if_pos hg]
  · simp only [if_neg hg]
    rw [mergeRaces_twice]
    rw [mergeEntriesGo_idem]

theorem mergeHtmlSnapshot_forall₂ (data : ChampionshipStandingsData)
    (snap : HtmlStandingsSnapshot)
    (hN : ∀ e ∈ data.entries, (e.raceResults.map (fun r => r.raceIndex)).Nodup) :
    List.Forall₂ (fun e e' =>
      e'.id = e.id ∧ e'.position = e.position ∧ e'.displayName = e.displayName ∧
      e'.countryCode = e.countryCode ∧ e'.car = e.car ∧ e'.points = e.points ∧
      e'.penalties = e.penalties ∧ e'.score = e.score ∧
      (e'.raceResults.map (fun r => r.raceIndex)).Nodup ∧
      ∀ r ∈ e.raceResults, ∃ r' ∈ e'.raceResults,
        r'.raceIndex = r.raceIndex ∧ r'.points = r.points ∧
        ∀ q, r.position = some q → r'.position = some q)
      data.entries (mergeHtmlSnapshot data snap).entries := by
  unfold mergeHtmlSnapshot
  by_cases hg : snap.raceColumns.length = 0 ∨ snap.rows.length = 0
  · simp only [if_pos hg]
    rw [List.forall₂_same]
    intro e he
    exact ⟨rfl, rfl, rfl, rfl, rfl, rfl, rfl, rfl, hN e he,
      fun r hr => ⟨r, hr, rfl, rfl, fun q hq => hq⟩⟩
  · simp only [if_neg hg]
    refine forall₂_imp_of_mem ?_
      (mergeEntriesGo_frame snap.rows (mergeRaces data.races snap.raceColumns)
        data.entries 0 [])
    intro a ha b hrel
    obtain ⟨h1, h2, h3, h4, h5, h6, h7, h8, hrr⟩ := hrel
    refine ⟨h1, h2, h3, h4, h5, h6, h7, h8, ?_, ?_⟩
    · rcases hrr with hrr | ⟨pos, hrr⟩
      · rw [hrr]
        exact hN a ha
      · rw [hrr]
        exact mergeRaceResults_nodup a.raceResults pos _
    · rcases hrr with hrr | ⟨pos, hrr⟩
      · rw [hrr]
        exact fun r hr => ⟨r, hr, rfl, rfl, fun q hq => hq⟩
      · rw [hrr]
        exact mergeRaceResults_preserves (hN a ha) pos _

theorem mergeHtml_forall₂ (data : ChampionshipStandingsData) (html : List Char)
    (hN : ∀ e ∈ data.entries, (e.raceResults.map (fun r => r.raceIndex)).Nodup) :
    List.Forall₂ (fun e e' =>
      e'.id = e.id ∧ e'.position = e.position ∧ e'.displayName = e.displayName ∧
      e'.countryCode = e.countryCode ∧ e'.car = e.car ∧ e'.points = e.points ∧
      e'.penalties = e.penalties ∧ e'.score = e.score ∧
      (e'.raceResults.map (fun r => r.raceIndex)).Nodup ∧
      ∀ r ∈ e.raceResults, ∃ r' ∈ e'.raceResults,
        r'.raceIndex = r.raceIndex ∧ r'.points = r.points ∧
        ∀ q, r.position = some q → r'.position = some q)
      data.entries (mergeHtmlRacePositions data html).entries := by
  cases hx : extractHtmlStandings html with
  | none =>
    have h1 : mergeHtmlRacePositions data html = data := by
      unfold mergeHtmlRacePositions
      rw [hx]
    rw [h1]
    rw [List.forall₂_same]
    intro e he
    exact ⟨rfl, rfl, rfl, rfl, rfl, rfl, rfl, rfl, hN e he,
      fun r hr => ⟨r, hr, rfl, rfl, fun q hq => hq⟩⟩
  | some snap =>
    have h1 : mergeHtmlRacePositions data html = mergeHtmlSnapshot data snap := by
      unfold mergeHtmlRacePositions
      rw [hx]
    rw [h1]
    exact mergeHtmlSnapshot_forall₂ data snap hN

/-- C1: merging the same page into an already-merged result is a no-op;
for inputs whose race results are unique per raceIndex (as the parser
guarantees), every merged entry's raceResults stay unique per raceIndex,
and every already non-null position keeps its value across a merge. -/
theorem mergeHtmlRacePositions_idem_props (data : ChampionshipStandingsData)
    (html : List Char)
    (hN : ∀ e ∈ data.entries, (e.raceResults.map (fun r => r.raceIndex)).Nodup) :
    mergeHtmlRacePositions (mergeHtmlRacePositions data html) html =
      mergeHtmlRacePositions data html ∧
    (∀ e ∈ (mergeHtmlRacePositions data html).entries,
      (e.raceResults.map (fun r => r.raceIndex)).Nodup) ∧
    List.Forall₂ (fun e e' => ∀ r ∈ e.raceResults, ∀ q, r.position = some q →
        ∃ r' ∈ e'.raceResults, r'.raceIndex = r.raceIndex ∧ r'.position = some q)
      data.entries (mergeHtmlRacePositions data html).entries := by
  have hfa := mergeHtml_forall₂ data html hN
  refine ⟨?_, ?_, ?_⟩
  · cases hx : extractHtmlStandings html with
    | none =>
      have h1 : mergeHtmlRacePositions data html = data := by
        unfold mergeHtmlRacePositions
        rw [hx]
      rw [h1, h1]
    | some snap =>
      have h1 : mergeHtmlRacePositions data html = mergeHtmlSnapshot data snap := by
        unfold mergeHtmlRacePositions
        rw [hx]
      rw [h1]
      show mergeHtmlRacePositions (mergeHtmlSnapshot data snap) html =
        mergeHtmlSnapshot data snap
      unfold mergeHtmlRacePositions
      rw [hx]
      exact mergeHtmlSnapshot_idem data snap
  · intro e he
    obtain ⟨a, _, hrel⟩ := forall₂_mem_right hfa e he
    exact hrel.2.2.2.2.2.2.2.2.1
  · refine List.Forall₂.imp ?_ hfa
    intro a b hrel r hr q hq
    obtain ⟨r', hr', hri, _, hq'⟩ := hrel.2.2.2.2.2.2.2.2.2 r hr
    exact ⟨r', hr', hri, hq' q hq⟩

/-- C1 witness: on the concrete page and data, merging twice equals
merging once. -/
theorem mergeHtmlRacePositions_idem_props_witness :
    mergeHtmlRacePositions (mergeHtmlRacePositions cData cHtmlCols) cHtmlCols =
      mergeHtmlRacePositions cData cHtmlCols :=
  (mergeHtmlRacePositions_idem_props cData cHtmlCols (by decide)).1

/-- C2: no HTML row is consumed by two entries (the some-assignments of the
merge loop are pairwise distinct), and the row matched to an entry is
characterized by the strict order: first unused exact-name match, else —
only for a non-null entry position — first unused position match, else the
entry's own index when in bounds and unused; an entry whose assignment is
none is returned unmodified. -/
theorem mergeMatching_spec (rows : List HtmlStandingRow) (races : List StandingRace)
    (entries : List StandingEntry) (entry : StandingEntry) (entryIndex : ℕ)
    (used : List ℕ) (i k : ℕ) :
    ((mergeEntriesGo rows races entries 0 []).2.filterMap id).Nodup ∧
    (findHtmlRowIndex entry entryIndex rows used = some i ↔
      specRowMatch entry entryIndex rows used i) ∧
    ((mergeEntriesGo rows races entries 0 []).2.get? k = some none →
      (mergeEntriesGo rows races entries 0 []).1.get? k = entries.get? k) :=
  ⟨(mergeEntriesGo_asg_facts rows races entries 0 []).1,
   findHtmlRowIndex_iff entry entryIndex rows used i,
   mergeEntriesGo_unmatched rows races entries 0 [] k⟩

/-- C2 witness: on the concrete snapshot and entries the some-assignments
are pairwise distinct. -/
theorem mergeMatching_spec_witness :
    ((mergeEntriesGo cSnap.rows cRaces [cEntryBob, cEntryAnn] 0 []).2.filterMap id).Nodup :=
  (mergeMatching_spec cSnap.rows cRaces [cEntryBob, cEntryAnn] cEntryBob 0 [] 0 0).1

/-- C10 counterexample: for an input entry whose raceResults repeat a
raceIndex, the merge drops all but the last result at that raceIndex, so a
points value that existed before the merge disappears. -/
theorem mergeHtmlRacePositions_points_counterexample :
    (∃ e ∈ cDupData.entries, ∃ r ∈ e.raceResults, r.points = some 1) ∧
    ∀ e ∈ (mergeHtmlRacePositions cDupData cHtmlCols).entries,
      ∀ r ∈ e.raceResults, r.points ≠ some 1 := by decide

/-- C10 (amended with the parser-guaranteed precondition that each entry's
raceResults are unique per raceIndex): the merge preserves the number and
order of entries; every entry keeps its id, position, displayName,
countryCode, car, points, penalties and score; and every race result that
existed before the merge is still present with the same raceIndex and the
same points value. -/
theorem mergeHtmlRacePositions_frame (data : ChampionshipStandingsData)
    (html : List Char)
    (hN : ∀ e ∈ data.entries, (e.raceResults.map (fun r => r.raceIndex)).Nodup) :
    (mergeHtmlRacePositions data html).entries.length = data.entries.length ∧
    List.Forall₂ (fun e e' =>
      e'.id = e.id ∧ e'.position = e.position ∧ e'.displayName = e.displayName ∧
      e'.countryCode = e.countryCode ∧ e'.car = e.car ∧ e'.points = e.points ∧
      e'.penalties = e.penalties ∧ e'.score = e.score ∧
      ∀ r ∈ e.raceResults, ∃ r' ∈ e'.raceResults,
        r'.raceIndex = r.raceIndex ∧ r'.points = r.points)
      data.entries (mergeHtmlRacePositions data html).entries := by
  have hfa := mergeHtml_forall₂ data html hN
  constructor
  · exact hfa.length_eq.symm
  · refine List.Forall₂.imp ?_ hfa
    intro a b hrel
    obtain ⟨h1, h2, h3, h4, h5, h6, h7, h8, _, hpres⟩ := hrel
    refine ⟨h1, h2, h3, h4, h5, h6, h7, h8, ?_⟩
    intro r hr
    obtain ⟨r', hr', hri, hpts, _⟩ := hpres r hr
    exact ⟨r', hr', hri, hpts⟩

/-- C10 witness: on the concrete page and data the entry count is
preserved. -/
theorem mergeHtmlRacePositions_frame_witness :
    (mergeHtmlRacePositions cData cHtmlCols).entries.length = cData.entries.length :=
  (mergeHtmlRacePositions_frame cData cHtmlCols (by decide)).1

end Skf
